import Mathlib

/-!
Verification of the twsearch scramble core against its specification.

This file gives a shallow embedding, in Lean 4, of the parts of the
repository relevant to the frozen claims:

* `SearchGenerators::try_new` (Hand metric) and `canonicalize_center_amount`
  from `src/rs/_internal/canonical_fsm/search_generators.rs`;
* the phase-2 coordinate machinery (`CoordEP`, `fillmovetable`,
  `PHASE2_MOVECOUNT`) and the phase-2 acceptance predicate
  `should_accept_solution` from `src/rs/scramble/puzzles/cube4x4x4.rs`;
* the phase drivers and FMC wrapping from
  `src/rs/scramble/puzzles/cube3x3x3.rs` and the two 4x4x4 drivers;
* `IDFSearch::recurse` from `src/rs/search/search.rs`.

Pure functions become Lean functions; the stateful BFS becomes explicit
state passing with fuel; fallible or random parts that live outside the
sources are modelled from the specification and are marked as such in
their doc comments.
-/

namespace Twsearch

/-! ## SearchGenerators (Hand metric) and amount canonicalization

The repeated self-composition in `try_new` and in
`naïve_transformation_order` only ever produces powers of the quantum
transformation `T_q`.  The cyclic subgroup generated by `T_q`, when `T_q`
has order `k`, is represented by `ZMod k`, with `T_q ↦ 1` and the
transformation of a move of amount `a` represented by `(a : ZMod k)`.
Composing with the move transformation is addition of `(a : ZMod k)`;
the identity transformation is `0`.
-/

/-- Translated from `canonicalize_center_amount` in
`search_generators.rs`: `((a + (order-1)/2).rem_euclid(order)) - (order-1)/2`.
Lean `%` on `Int` is Euclidean mod, matching `rem_euclid` for positive
`order`, and `/` agrees with Rust's truncating division on the
nonnegative operand `order - 1`. -/
def canonicalize_center_amount (order amount : ℤ) : ℤ :=
  (amount + (order - 1) / 2) % order - (order - 1) / 2

/-- The loop of `naïve_transformation_order`: `order` starts at 1 and the
current transformation at the given transformation; while the current
transformation is not the identity, compose with the transformation and
increment.  Fuel bounds the iteration count; `k` units always suffice. -/
def naiveOrderGo (k : ℕ) (step : ZMod k) : ZMod k → ℕ → ℕ → ℕ
  | _, ord, 0 => ord
  | cur, ord, fuel + 1 =>
    if cur = 0 then ord else naiveOrderGo k step (cur + step) (ord + 1) fuel

/-- Translated from `naïve_transformation_order` in `search_generators.rs`,
for a transformation lying in the cyclic group `ZMod k`. -/
def naiveTransformationOrder (k : ℕ) (t : ZMod k) : ℕ :=
  naiveOrderGo k t t 1 k

/-- The Hand-metric multiples loop of `SearchGenerators::try_new`:
starting from the move transformation (exponent `a`) and running amount
`a`, while the current transformation is not the identity, push an entry
whose move amount is `canonicalize_center_amount(order, amount)`, then
step the amount by `a` and compose with the move transformation.  The
returned list holds the pushed amounts, one per group entry. -/
def handAmountsGo (k : ℕ) (step : ZMod k) (a : ℤ) (ord : ℤ) : ZMod k → ℤ → ℕ → List ℤ
  | _, _, 0 => []
  | cur, amt, fuel + 1 =>
    if cur = 0 then []
    else canonicalize_center_amount ord amt :: handAmountsGo k step a ord (cur + step) (amt + a) fuel

/-- The move amounts of the group (move class) that
`SearchGenerators::try_new` builds, under the Hand metric, for a
generator move of amount `a` whose quantum transformation has order `k`:
the order is computed by `naïve_transformation_order` on the quantum
transformation (`1 : ZMod k`), then the multiples loop runs on the move
transformation `(a : ZMod k)`. -/
def handGroupAmounts (k : ℕ) (a : ℤ) : List ℤ :=
  handAmountsGo k (a : ZMod k) a (naiveTransformationOrder k 1 : ℤ) ((a : ZMod k)) a (k + 1)

/-- Translated from `const PHASE2_MOVECOUNT: usize = 23` in `cube4x4x4.rs`. -/
def PHASE2_MOVECOUNT : ℕ := 23

/-- The flat list built by `try_new` under the Hand metric is the
concatenation of the per-move groups (each entry is pushed to `flat` as
it is pushed to its group).  Only the amounts are tracked here. -/
def tryNewFlatHand (k : ℕ) (amounts : List ℤ) : List ℤ :=
  (amounts.map (fun a => handGroupAmounts k a)).flatten

/-- The amounts of the parsed phase-2 generator list
`["Uw2", "U", "L", "F", "Rw", "R", "B", "Dw2", "D"]` from `cube4x4x4.rs`
(`Uw2` and `Dw2` have amount 2, the others amount 1).  On the 4x4x4 each
of these nine quantum moves has order 4, which is the premise of claim
C4 and is modelled by instantiating `k = 4` for every generator. -/
def phase2_generator_amounts : List ℤ := [2, 1, 1, 1, 1, 1, 1, 2, 1]

/-- C8: the amount-canonicalization function is idempotent: for every
order `k ≥ 1` and every integer amount `a`,
`canonicalize(k, canonicalize(k, a)) = canonicalize(k, a)`. -/
theorem canonicalize_idempotent (k a : ℤ) (hk : 1 ≤ k) :
    canonicalize_center_amount k (canonicalize_center_amount k a) =
      canonicalize_center_amount k a := by
  unfold canonicalize_center_amount
  have e1 : (a + (k - 1) / 2) % k - (k - 1) / 2 + (k - 1) / 2 = (a + (k - 1) / 2) % k := by
    ring
  rw [e1, Int.emod_emod_of_dvd _ dvd_rfl]

/-- Witness for C8 at `k = 4`, `a = 7`. -/
theorem canonicalize_idempotent_witness :
    (1 : ℤ) ≤ 4 ∧
      canonicalize_center_amount 4 (canonicalize_center_amount 4 7) =
        canonicalize_center_amount 4 7 :=
  ⟨by decide, canonicalize_idempotent 4 7 (by decide)⟩

/-- C2 counterexample: the generator move `Uw2` has a quantum
transformation of order `k = 4` but amount 2, and its Hand-metric group
has exactly one entry (the transformation of `Uw2` already has order 2),
not `k - 1 = 3` as the claim states. -/
theorem hand_multiples_counterexample :
    naiveTransformationOrder 4 1 = 4 ∧
      (handGroupAmounts 4 2).length = 1 ∧
      ¬(handGroupAmounts 4 2).length = 4 - 1 := by
  decide

/-- The order loop, started at step `1` (the quantum transformation),
returns `k`: from position `j` with `1 ≤ j ≤ k` and fuel at least
`k - j`, the loop terminates with order `k`. -/
theorem naiveOrderGo_one (k : ℕ) (hk : 1 ≤ k) :
    ∀ fuel j, 1 ≤ j → j ≤ k → k - j ≤ fuel →
      naiveOrderGo k 1 ((j : ℕ) : ZMod k) j fuel = k := by
  intro fuel
  induction fuel with
  | zero =>
    intro j h1 h2 h3
    have hj : j = k := by omega
    subst hj
    rfl
  | succ fuel ih =>
    intro j h1 h2 h3
    by_cases hj : j = k
    · have hz : ((j : ℕ) : ZMod k) = 0 := by
        rw [ZMod.natCast_zmod_eq_zero_iff_dvd]
        exact hj ▸ dvd_refl k
      rw [naiveOrderGo, if_pos hz]
      exact hj
    · have hjk : j < k := by omega
      have hnz : ((j : ℕ) : ZMod k) ≠ 0 := by
        rw [Ne, ZMod.natCast_zmod_eq_zero_iff_dvd]
        intro hdvd
        have := Nat.le_of_dvd (by omega) hdvd
        omega
      have hstep : ((j : ℕ) : ZMod k) + 1 = (((j + 1 : ℕ)) : ZMod k) := by
        push_cast
        ring
      rw [naiveOrderGo, if_neg hnz, hstep]
      exact ih (j + 1) (by omega) (by omega) (by omega)

/-- `naïve_transformation_order` applied to the quantum transformation
(`1 : ZMod k`) computes exactly `k` for `k ≥ 1`. -/
theorem naiveTransformationOrder_one (k : ℕ) (hk : 1 ≤ k) :
    naiveTransformationOrder k 1 = k := by
  have h := naiveOrderGo_one k hk k 1 (by omega) hk (by omega)
  simpa [naiveTransformationOrder] using h

/-- Closed form of the Hand-metric multiples loop when the move amount is
coprime to the quantum order: starting at multiple `j`, the loop emits
the canonicalized amounts `(j + t) * a` for `t < k - j`. -/
theorem handAmountsGo_spec (k : ℕ) (a : ℤ) (ord : ℤ) (hk : 1 ≤ k)
    (hcop : IsCoprime ((k : ℤ)) a) :
    ∀ fuel j, 1 ≤ j → j ≤ k → k - j ≤ fuel →
      handAmountsGo k (a : ZMod k) a ord (((j : ℕ) * a : ℤ) : ZMod k) ((j : ℕ) * a) fuel =
        (List.range (k - j)).map
          (fun t => canonicalize_center_amount ord (((j + t : ℕ)) * a)) := by
  intro fuel
  induction fuel with
  | zero =>
    intro j h1 h2 h3
    have hj : j = k := by omega
    subst hj
    simp [handAmountsGo]
  | succ fuel ih =>
    intro j h1 h2 h3
    by_cases hj : j = k
    · have hz : (((j : ℕ) * a : ℤ) : ZMod k) = 0 := by
        rw [ZMod.intCast_zmod_eq_zero_iff_dvd, hj]
        exact Dvd.dvd.mul_right (dvd_refl _) a
      rw [handAmountsGo, if_pos hz, hj]
      simp
    · have hjk : j < k := by omega
      have hnz : (((j : ℕ) * a : ℤ) : ZMod k) ≠ 0 := by
        rw [Ne, ZMod.intCast_zmod_eq_zero_iff_dvd]
        intro hdvd
        have hdj : (k : ℤ) ∣ (j : ℕ) := hcop.dvd_of_dvd_mul_right hdvd
        have hdjn : k ∣ j := by exact_mod_cast hdj
        have := Nat.le_of_dvd (by omega) hdjn
        omega
      have hstep : (((j : ℕ) * a : ℤ) : ZMod k) + (a : ZMod k) =
          (((j + 1 : ℕ) * a : ℤ) : ZMod k) := by
        push_cast
        ring
      have hamt : ((j : ℕ) : ℤ) * a + a = ((j + 1 : ℕ) : ℤ) * a := by
        push_cast
        ring
      rw [handAmountsGo, if_neg hnz, hstep, hamt,
        ih (j + 1) (by omega) (by omega) (by omega)]
      have hrange : k - j = (k - (j + 1)) + 1 := by omega
      rw [hrange, List.range_succ_eq_map, List.map_cons, List.map_map]
      congr 1
      apply List.map_congr_left
      intro t ht
      simp only [Function.comp_apply]
      congr 1
      push_cast
      ring

/-- `canonicalize_center_amount` depends only on the residue of the
amount modulo the order. -/
theorem canonicalize_congr (k x y : ℤ) (h : x % k = y % k) :
    canonicalize_center_amount k x = canonicalize_center_amount k y := by
  unfold canonicalize_center_amount
  rw [Int.add_emod, h, ← Int.add_emod]

/-- `canonicalize_center_amount` determines the residue of the amount
modulo the order. -/
theorem canonicalize_inj (k x y : ℤ)
    (h : canonicalize_center_amount k x = canonicalize_center_amount k y) :
    x % k = y % k := by
  have h2 : (x + (k - 1) / 2) % k = (y + (k - 1) / 2) % k := by
    unfold canonicalize_center_amount at h
    omega
  calc x % k = (x + (k - 1) / 2 - (k - 1) / 2) % k := by congr 1; ring
    _ = ((x + (k - 1) / 2) % k - ((k - 1) / 2) % k) % k := by rw [Int.sub_emod]
    _ = ((y + (k - 1) / 2) % k - ((k - 1) / 2) % k) % k := by rw [h2]
    _ = (y + (k - 1) / 2 - (k - 1) / 2) % k := by rw [← Int.sub_emod]
    _ = y % k := by congr 1; ring

/-- Closed form of `handGroupAmounts` for a move amount coprime to the
quantum order: the group holds the canonicalized amounts `(1+t)·a`
for `t < k - 1`. -/
theorem handGroupAmounts_eq (k : ℕ) (a : ℤ) (hk : 1 ≤ k)
    (hcop : IsCoprime ((k : ℤ)) a) :
    handGroupAmounts k a =
      (List.range (k - 1)).map
        (fun t => canonicalize_center_amount k (((1 + t : ℕ)) * a)) := by
  have h := handAmountsGo_spec k a ((naiveTransformationOrder k 1 : ℕ) : ℤ) hk hcop
    (k + 1) 1 (le_refl 1) hk (by omega)
  rw [naiveTransformationOrder_one k hk] at h
  unfold handGroupAmounts
  rw [naiveTransformationOrder_one k hk]
  simpa using h

/-- C2 amended: for every generator move whose quantum transformation has
order `k` and whose amount `a` is coprime to `k`, the Hand-metric group
has exactly `k - 1` entries and their amounts are a permutation of
`canonicalize(k, i)` for `i ∈ {1, …, k-1}`. -/
theorem hand_multiples_amended (k : ℕ) (a : ℤ) (hk : 1 ≤ k)
    (hcop : Int.gcd a (k : ℤ) = 1) :
    naiveTransformationOrder k 1 = k ∧
    (handGroupAmounts k a).length = k - 1 ∧
    List.Perm (handGroupAmounts k a)
      ((List.range (k - 1)).map
        (fun t => canonicalize_center_amount k ((1 + t : ℕ) : ℤ))) := by
  have hcop' : IsCoprime ((k : ℤ)) a := (Int.gcd_eq_one_iff_coprime.mp hcop).symm
  have hk0 : (0 : ℤ) < (k : ℤ) := by exact_mod_cast hk
  refine ⟨naiveTransformationOrder_one k hk, ?_, ?_⟩
  · rw [handGroupAmounts_eq k a hk hcop']
    simp
  · rw [handGroupAmounts_eq k a hk hcop']
    apply List.perm_of_nodup_nodup_toFinset_eq
    · refine List.Nodup.map_on ?_ (List.nodup_range _)
      intro t ht s hs hcanon
      rw [List.mem_range] at ht hs
      have hmod := canonicalize_inj _ _ _ hcanon
      have hdvd : ((k : ℕ) : ℤ) ∣ ((1 + s : ℕ) : ℤ) * a - ((1 + t : ℕ) : ℤ) * a :=
        Int.modEq_iff_dvd.mp hmod
      have hdvd2 : ((k : ℕ) : ℤ) ∣ (((1 + s : ℕ) : ℤ) - ((1 + t : ℕ) : ℤ)) * a := by
        rw [sub_mul]
        exact hdvd
      have hfac := hcop'.dvd_of_dvd_mul_right hdvd2
      have hzero : ((1 + s : ℕ) : ℤ) - ((1 + t : ℕ) : ℤ) = 0 :=
        Int.eq_zero_of_dvd_of_natAbs_lt_natAbs hfac (by omega)
      omega
    · refine List.Nodup.map_on ?_ (List.nodup_range _)
      intro t ht s hs hcanon
      rw [List.mem_range] at ht hs
      have hmod := canonicalize_inj _ _ _ hcanon
      rw [Int.emod_eq_of_lt (by omega) (by omega),
        Int.emod_eq_of_lt (by omega) (by omega)] at hmod
      omega
    · ext x
      simp only [List.mem_toFinset, List.mem_map, List.mem_range]
      constructor
      · rintro ⟨t, ht, rfl⟩
        set m : ℤ := (((1 + t : ℕ) : ℤ) * a) % (k : ℤ) with hm
        have hm0 : 0 ≤ m := Int.emod_nonneg _ (by omega)
        have hmk : m < (k : ℤ) := Int.emod_lt_of_pos _ hk0
        have hmne : m ≠ 0 := by
          intro h0
          have hdv : ((k : ℕ) : ℤ) ∣ ((1 + t : ℕ) : ℤ) * a :=
            Int.dvd_of_emod_eq_zero (by rw [← hm]; exact h0)
          have h2 := hcop'.dvd_of_dvd_mul_right hdv
          have h3 : k ∣ (1 + t) := by exact_mod_cast h2
          have := Nat.le_of_dvd (by omega) h3
          omega
        refine ⟨m.toNat - 1, by omega, ?_⟩
        apply canonicalize_congr
        have hx : ((1 + (m.toNat - 1) : ℕ) : ℤ) = m := by omega
        rw [hx, Int.emod_eq_of_lt hm0 hmk]
      · rintro ⟨s, hs, rfl⟩
        obtain ⟨u, v, huv⟩ := hcop'
        set m : ℤ := (((1 + s : ℕ) : ℤ) * v) % (k : ℤ) with hm
        have hm0 : 0 ≤ m := Int.emod_nonneg _ (by omega)
        have hmk : m < (k : ℤ) := Int.emod_lt_of_pos _ hk0
        have hva : v * a = 1 - u * (k : ℤ) := by linarith
        have hmod : (m * a) % (k : ℤ) = ((1 + s : ℕ) : ℤ) % (k : ℤ) := by
          calc (m * a) % (k : ℤ)
              = ((((1 + s : ℕ) : ℤ) * v) % (k : ℤ) * a) % (k : ℤ) := by rw [hm]
            _ = ((((1 + s : ℕ) : ℤ) * v) * a) % (k : ℤ) := by
                rw [Int.mul_emod, Int.emod_emod_of_dvd _ dvd_rfl, ← Int.mul_emod]
            _ = (((1 + s : ℕ) : ℤ) * (v * a)) % (k : ℤ) := by ring_nf
            _ = (((1 + s : ℕ) : ℤ) * (1 - u * (k : ℤ))) % (k : ℤ) := by rw [hva]
            _ = (((1 + s : ℕ) : ℤ) + (-(((1 + s : ℕ) : ℤ) * u)) * (k : ℤ)) % (k : ℤ) := by
                congr 1
                ring
            _ = ((1 + s : ℕ) : ℤ) % (k : ℤ) := by rw [Int.add_mul_emod_self]
        have hmne : m ≠ 0 := by
          intro h0
          have hz : ((1 + s : ℕ) : ℤ) % (k : ℤ) = 0 := by
            rw [← hmod, h0, zero_mul, Int.zero_emod]
          have hdv : ((k : ℕ) : ℤ) ∣ ((1 + s : ℕ) : ℤ) := Int.dvd_of_emod_eq_zero hz
          have h3 : k ∣ (1 + s) := by exact_mod_cast hdv
          have := Nat.le_of_dvd (by omega) h3
          omega
        refine ⟨m.toNat - 1, by omega, ?_⟩
        apply canonicalize_congr
        have hx : ((1 + (m.toNat - 1) : ℕ) : ℤ) = m := by omega
        rw [hx]
        exact hmod

/-- Witness for the amended C2 at `k = 4`, `a = 1` (the generator `U`). -/
theorem hand_multiples_amended_witness :
    (1 ≤ 4 ∧ Int.gcd 1 ((4 : ℕ) : ℤ) = 1) ∧
      (naiveTransformationOrder 4 1 = 4 ∧
        (handGroupAmounts 4 1).length = 4 - 1 ∧
        List.Perm (handGroupAmounts 4 1)
          ((List.range (4 - 1)).map
            (fun t => canonicalize_center_amount 4 ((1 + t : ℕ) : ℤ)))) :=
  ⟨⟨by decide, by decide⟩, hand_multiples_amended 4 1 (by decide) (by decide)⟩

/-- C4: instantiating `try_new` on the phase-2 generator list
`{Uw2, U, L, F, Rw, R, B, Dw2, D}` under the Hand metric, with every
quantum transformation of order 4, yields a flat list of exactly 23
entries, which is `PHASE2_MOVECOUNT`. -/
theorem phase2_movecount_23 :
    (tryNewFlatHand 4 phase2_generator_amounts).length = PHASE2_MOVECOUNT := by
  decide

/-! ## Algorithms, phase drivers and FMC wrapping

Algorithms are sequences of nodes; for scrambles only move and pause
nodes are produced.  A move is modelled by its quantum family (face
letter, with `w` for wide moves folded into the family string) and a
signed amount, following the move notation of the spec. -/

/-- A move: quantum family plus signed amount. -/
structure SMove where
  family : String
  amount : ℤ
deriving DecidableEq

/-- An algorithm node; scrambles produce only move and pause nodes. -/
inductive AlgNode where
  | move : SMove → AlgNode
  | pause : AlgNode
deriving DecidableEq

/-- Translated from the tail of `Scramble3x3x3TwoPhase::solve_3x3x3_pattern`
in `cube3x3x3.rs`: the returned nodes are the phase-1 nodes followed
directly by the phase-2 nodes. -/
def solve_3x3x3_nodes (phase1 phase2 : List AlgNode) : List AlgNode :=
  phase1 ++ phase2

/-- Translated from the tail of `Scramble4x4x4FourPhase::solve_4x4x4_pattern`
in `cube4x4x4.rs` (same in `cube4x4x4/four_phase.rs`): the phase-1
nodes, a pause node, the phase-2 nodes, and a trailing pause node. -/
def solve_4x4x4_nodes (phase1 phase2 : List AlgNode) : List AlgNode :=
  phase1 ++ AlgNode.pause :: (phase2 ++ [AlgNode.pause])

/-- C5 counterexample: for the 3x3x3 two-phase driver the concatenation
contains no pause node at all (phase algorithms consist of move nodes
only), so no pause separates the phases. -/
theorem pause_counterexample_3x3x3 :
    AlgNode.pause ∉
      solve_3x3x3_nodes [AlgNode.move ⟨"U", 1⟩] [AlgNode.move ⟨"R", 1⟩] := by
  decide

/-- C5 amended: only the 4x4x4 four-phase driver separates the phases
with a pause token (and appends a trailing one); the 3x3x3 two-phase
driver concatenates the phase nodes with no separator, so its output
contains no pause when the phase algorithms contain none. -/
theorem pause_amended (p1 p2 : List AlgNode)
    (h1 : AlgNode.pause ∉ p1) (h2 : AlgNode.pause ∉ p2) :
    ((solve_4x4x4_nodes p1 p2).take p1.length = p1 ∧
      (solve_4x4x4_nodes p1 p2)[p1.length]? = some AlgNode.pause ∧
      (solve_4x4x4_nodes p1 p2).drop (p1.length + 1) = p2 ++ [AlgNode.pause]) ∧
    (solve_3x3x3_nodes p1 p2 = p1 ++ p2 ∧
      AlgNode.pause ∉ solve_3x3x3_nodes p1 p2) := by
  refine ⟨⟨?_, ?_, ?_⟩, rfl, ?_⟩
  · unfold solve_4x4x4_nodes
    rw [List.take_left]
  · unfold solve_4x4x4_nodes
    rw [List.getElem?_append_right (le_refl _)]
    simp
  · show (p1 ++ AlgNode.pause :: (p2 ++ [AlgNode.pause])).drop (p1.length + 1) = _
    have hsplit : p1 ++ AlgNode.pause :: (p2 ++ [AlgNode.pause]) =
        (p1 ++ [AlgNode.pause]) ++ (p2 ++ [AlgNode.pause]) := by
      simp
    rw [hsplit, List.drop_left' (by simp)]
  · unfold solve_3x3x3_nodes
    simp only [List.mem_append]
    intro hmem
    rcases hmem with hmem | hmem
    · exact h1 hmem
    · exact h2 hmem

/-- Witness for the amended C5 at concrete one-move phase algorithms. -/
theorem pause_amended_witness :
    ((solve_4x4x4_nodes [AlgNode.move ⟨"U", 1⟩] [AlgNode.move ⟨"R", 1⟩]).take 1 =
        [AlgNode.move ⟨"U", 1⟩] ∧
      (solve_4x4x4_nodes [AlgNode.move ⟨"U", 1⟩] [AlgNode.move ⟨"R", 1⟩])[1]? =
        some AlgNode.pause ∧
      (solve_4x4x4_nodes [AlgNode.move ⟨"U", 1⟩] [AlgNode.move ⟨"R", 1⟩]).drop 2 =
        [AlgNode.move ⟨"R", 1⟩] ++ [AlgNode.pause]) ∧
    (solve_3x3x3_nodes [AlgNode.move ⟨"U", 1⟩] [AlgNode.move ⟨"R", 1⟩] =
        [AlgNode.move ⟨"U", 1⟩] ++ [AlgNode.move ⟨"R", 1⟩] ∧
      AlgNode.pause ∉
        solve_3x3x3_nodes [AlgNode.move ⟨"U", 1⟩] [AlgNode.move ⟨"R", 1⟩]) :=
  pause_amended [AlgNode.move ⟨"U", 1⟩] [AlgNode.move ⟨"R", 1⟩]
    (by decide) (by decide)

/-- Whether the first move of an algorithm has its quantum family in the
given list (false for the empty algorithm). -/
def headFamilyIn (l : List SMove) (bad : List String) : Bool :=
  match l.head? with
  | none => false
  | some m => bad.contains m.family

/-- Whether the last move of an algorithm has its quantum family in the
given list (false for the empty algorithm). -/
def lastFamilyIn (l : List SMove) (bad : List String) : Bool :=
  match l.getLast? with
  | none => false
  | some m => bad.contains m.family

/-- Translated from `FMC_AFFIX = ["R'", "U'", "F"]` in `cube3x3x3.rs`,
parsed per the spec's move notation: R inverse, U inverse, F. -/
def fmcAffixMoves : List SMove := [⟨"R", -1⟩, ⟨"U", -1⟩, ⟨"F", 1⟩]

/-- Translated from `scramble_3x3x3_fmc` in `cube3x3x3.rs`: the affix
moves, then the nodes of `scramble_3x3x3(ForFMC)` — which are
`phase1 ++ phase2` from `solve_3x3x3_pattern` — then the affix moves
again.  The two inner phase algorithms are parameters here; the search
producing them is not under `src/`, and its contract (the disallowed
initial and final quanta of `IndividualSearchOptions`) is modelled from
the spec as hypotheses on these parameters. -/
def scramble_3x3x3_fmc_nodes (phase1 phase2 : List SMove) : List SMove :=
  fmcAffixMoves ++ (phase1 ++ phase2) ++ fmcAffixMoves

/-- The property claimed by C6 of an FMC scramble built from the two
phase algorithms: affixes at both ends, and the inner algorithm neither
starts with an F/B-quantum move nor ends with an R/L-quantum move. -/
def fmc_claim (phase1 phase2 : List SMove) : Prop :=
  (scramble_3x3x3_fmc_nodes phase1 phase2).take 3 = fmcAffixMoves ∧
  (scramble_3x3x3_fmc_nodes phase1 phase2).drop
      ((scramble_3x3x3_fmc_nodes phase1 phase2).length - 3) = fmcAffixMoves ∧
  headFamilyIn (phase1 ++ phase2) ["F", "B"] = false ∧
  lastFamilyIn (phase1 ++ phase2) ["R", "L"] = false

instance (phase1 phase2 : List SMove) : Decidable (fmc_claim phase1 phase2) := by
  unfold fmc_claim
  infer_instance

/-- C6 counterexample: `solve_3x3x3_pattern` passes the disallowed
initial quanta `{F, B}` only to the phase-1 search and the disallowed
final quanta `{R, L}` to both searches.  When phase 1 returns the empty
algorithm and phase 2 starts with `F2` (allowed: phase 2 receives no
initial-quantum restriction), the inner algorithm starts with an
F-quantum move, violating the claim, even though both phase algorithms
satisfy every restriction the code imposes. -/
theorem fmc_wrapping_counterexample :
    headFamilyIn ([] : List SMove) ["F", "B"] = false ∧
    lastFamilyIn ([] : List SMove) ["R", "L"] = false ∧
    lastFamilyIn [(⟨"F", 2⟩ : SMove)] ["R", "L"] = false ∧
    ¬fmc_claim [] [⟨"F", 2⟩] := by
  decide

/-- C6 amended: the FMC output starts and ends with the affix `R-inverse
U-inverse F`; the inner algorithm never ends with an R/L-quantum move;
and, provided phase 1 is nonempty, the inner algorithm does not start
with an F/B-quantum move. -/
theorem fmc_wrapping_amended (phase1 phase2 : List SMove)
    (h1 : headFamilyIn phase1 ["F", "B"] = false)
    (h2 : lastFamilyIn phase1 ["R", "L"] = false)
    (h3 : lastFamilyIn phase2 ["R", "L"] = false) :
    (scramble_3x3x3_fmc_nodes phase1 phase2).take 3 = fmcAffixMoves ∧
    (scramble_3x3x3_fmc_nodes phase1 phase2).drop
        ((scramble_3x3x3_fmc_nodes phase1 phase2).length - 3) = fmcAffixMoves ∧
    lastFamilyIn (phase1 ++ phase2) ["R", "L"] = false ∧
    (phase1 ≠ [] → headFamilyIn (phase1 ++ phase2) ["F", "B"] = false) := by
  refine ⟨?_, ?_, ?_, ?_⟩
  · show (fmcAffixMoves ++ (phase1 ++ phase2) ++ fmcAffixMoves).take 3 = fmcAffixMoves
    rw [List.append_assoc, List.take_left' (by rfl)]
  · show (fmcAffixMoves ++ (phase1 ++ phase2) ++ fmcAffixMoves).drop _ = fmcAffixMoves
    apply List.drop_left'
    simp [scramble_3x3x3_fmc_nodes, fmcAffixMoves]
    omega
  · rcases List.eq_nil_or_concat phase2 with h | ⟨l, m, rfl⟩
    · subst h
      simpa using h2
    · unfold lastFamilyIn at h3 ⊢
      rw [List.concat_eq_append] at h3 ⊢
      rw [← List.append_assoc]
      rw [List.getLast?_concat] at h3 ⊢
      exact h3
  · intro hne
    rcases phase1 with _ | ⟨m, rest⟩
    · exact absurd rfl hne
    · unfold headFamilyIn at h1 ⊢
      simpa using h1

/-- Witness for the amended C6 at concrete phase algorithms `U` / `D2`. -/
theorem fmc_wrapping_amended_witness :
    (scramble_3x3x3_fmc_nodes [⟨"U", 1⟩] [⟨"D", 2⟩]).take 3 = fmcAffixMoves ∧
    (scramble_3x3x3_fmc_nodes [⟨"U", 1⟩] [⟨"D", 2⟩]).drop
        ((scramble_3x3x3_fmc_nodes [⟨"U", 1⟩] [⟨"D", 2⟩]).length - 3) = fmcAffixMoves ∧
    lastFamilyIn ([⟨"U", 1⟩] ++ [⟨"D", 2⟩]) ["R", "L"] = false ∧
    (([(⟨"U", 1⟩ : SMove)] : List SMove) ≠ [] →
      headFamilyIn ([⟨"U", 1⟩] ++ [⟨"D", 2⟩]) ["F", "B"] = false) :=
  fmc_wrapping_amended [⟨"U", 1⟩] [⟨"D", 2⟩] (by decide) (by decide) (by decide)

/-! ## IDFSearch::recurse (src/rs/search/search.rs) -/

/-- The data `IDFSearch::recurse` consults: the grouped move
transformations, the canonical FSM transition function, the pattern the
search starts from (`target_pattern`), the pattern compared against at
depth 0 (`scramble_pattern`), and pattern-transformation application.
Patterns, transformations and FSM states are abstract. -/
structure IDFSModel (P T S : Type) where
  grouped : List (List T)
  next_state : S → ℕ → Option S
  target_pattern : P
  scramble_pattern : P
  apply_transformation : P → T → P

/-- Translated from `IDFSearch::recurse`: at depth 0, report whether the
current pattern equals `scramble_pattern`; otherwise iterate the move
classes, skip those the FSM rejects, and recurse on each multiple with
one unit less depth. -/
def recurse {P T S : Type} [DecidableEq P] (m : IDFSModel P T S) :
    ℕ → P → S → Bool
  | 0, cur, _ => decide (cur = m.scramble_pattern)
  | d + 1, cur, st =>
    m.grouped.enum.any fun pr =>
      match m.next_state st pr.1 with
      | none => false
      | some ns =>
        pr.2.any fun info => recurse m d (m.apply_transformation cur info) ns

/-- Translated from `IDFSearch::search`: the iterative deepening loop
starts at depth 0 from `target_pattern`; this is its depth-0 probe. -/
def searchDepthZero {P T S : Type} [DecidableEq P] (m : IDFSModel P T S)
    (startState : S) : Bool :=
  recurse m 0 m.target_pattern startState

/-- C9: a search with depth budget 0 yields a solution iff the start
pattern equals the stored comparison pattern; at depth 0 `recurse`
returns true exactly on equality, and consults neither the move table,
the FSM, nor pattern application (its value is unchanged under replacing
all three). -/
theorem recurse_depth_zero {P T S : Type} [DecidableEq P]
    (m : IDFSModel P T S) (startState : S) :
    (searchDepthZero m startState = true ↔
      m.target_pattern = m.scramble_pattern) ∧
    (∀ (cur : P) (st : S), recurse m 0 cur st = true ↔ cur = m.scramble_pattern) ∧
    (∀ (g : List (List T)) (next : S → ℕ → Option S)
        (app : P → T → P) (cur : P) (st st' : S),
      recurse (IDFSModel.mk g next m.target_pattern m.scramble_pattern app)
          0 cur st' = recurse m 0 cur st) := by
  refine ⟨?_, ?_, ?_⟩
  · simp [searchDepthZero, recurse]
  · intro cur st
    simp [recurse]
  · intro g next app cur st st'
    simp [recurse]

/-! ## random_3x3x3_pattern (cube3x3x3.rs) -/

/-- The parity enum of the out-of-src module `scramble/randomize.rs`. -/
inductive BasicParity where
  | Even
  | Odd
deriving DecidableEq

/-- Modelled from the spec: `basic_parity` (out-of-src, in
`scramble/randomize.rs`) computes the parity of a permutation slice;
modelled as the parity of the inversion count of the list. -/
def inversions : List ℕ → ℕ
  | [] => 0
  | x :: xs => xs.countP (fun y => decide (y < x)) + inversions xs

/-- Modelled from the spec: Even or Odd according to the inversion count. -/
def basic_parity (l : List ℕ) : BasicParity :=
  if inversions l % 2 = 0 then BasicParity.Even else BasicParity.Odd

/-- The permutation constraints `randomize_orbit_naive` accepts
(from its call sites in `cube3x3x3.rs`). -/
inductive OrbitPermutationConstraint where
  | AnyPermutation
  | SingleOrbitEvenParity
  | SingleOrbitOddParity

/-- Modelled from the spec: the contract of the out-of-src sampler
`randomize_orbit_naive` on the permutation it returns. -/
def permutationConstraintHolds (c : OrbitPermutationConstraint)
    (order : List ℕ) : Prop :=
  match c with
  | OrbitPermutationConstraint.AnyPermutation => True
  | OrbitPermutationConstraint.SingleOrbitEvenParity =>
      basic_parity order = BasicParity.Even
  | OrbitPermutationConstraint.SingleOrbitOddParity =>
      basic_parity order = BasicParity.Odd

instance (c : OrbitPermutationConstraint) (order : List ℕ) :
    Decidable (permutationConstraintHolds c order) := by
  cases c <;> unfold permutationConstraintHolds <;> infer_instance

/-- Translated from `random_3x3x3_pattern` in `cube3x3x3.rs`: the corner
orbit's permutation constraint is selected by matching on the parity of
the freshly sampled edge permutation. -/
def cornerConstraintFor (edgeOrder : List ℕ) : OrbitPermutationConstraint :=
  match basic_parity edgeOrder with
  | BasicParity.Even => OrbitPermutationConstraint.SingleOrbitEvenParity
  | BasicParity.Odd => OrbitPermutationConstraint.SingleOrbitOddParity

/-- C10: every pattern produced by `random_3x3x3_pattern` is legal: the
corner permutation's parity equals the edge permutation's parity
(because the corner constraint is selected from the edge parity), and
each orbit's orientations sum to zero modulo that orbit's orientation
modulus (the sampler's contract, which the driver requests with
`OrientationsMustSumToZero` for both orbits). -/
theorem random_3x3x3_legal
    (edgeOrder cornerOrder edgeOri cornerOri : List ℕ)
    (edgeModulus cornerModulus : ℕ)
    (hcorner : permutationConstraintHolds (cornerConstraintFor edgeOrder) cornerOrder)
    (hedgeOri : edgeOri.sum % edgeModulus = 0)
    (hcornerOri : cornerOri.sum % cornerModulus = 0) :
    basic_parity cornerOrder = basic_parity edgeOrder ∧
    edgeOri.sum % edgeModulus = 0 ∧ cornerOri.sum % cornerModulus = 0 := by
  refine ⟨?_, hedgeOri, hcornerOri⟩
  unfold cornerConstraintFor at hcorner
  cases h : basic_parity edgeOrder <;> rw [h] at hcorner <;>
    simpa [permutationConstraintHolds] using hcorner

/-- Witness for C10 at concrete sampler outputs: edge order `[1, 0]`
(odd), corner order `[2, 1, 0]` (odd), orientations `[1, 1]` mod 2 and
`[1, 2]` mod 3. -/
theorem random_3x3x3_legal_witness :
    permutationConstraintHolds (cornerConstraintFor [1, 0]) [2, 1, 0] ∧
    ([1, 1] : List ℕ).sum % 2 = 0 ∧ ([1, 2] : List ℕ).sum % 3 = 0 ∧
    (basic_parity [2, 1, 0] = basic_parity [1, 0] ∧
      ([1, 1] : List ℕ).sum % 2 = 0 ∧ ([1, 2] : List ℕ).sum % 3 = 0) := by
  refine ⟨?_, ?_, ?_, random_3x3x3_legal [1, 0] [2, 1, 0] [1, 1] [1, 2] 2 3 ?_ ?_ ?_⟩ <;>
    decide

/-! ## Phase-2 acceptance predicate (cube4x4x4.rs)

`should_accept_solution` applies the candidate algorithm to the cached
post-phase-1 full pattern (via the out-of-src kpuzzle layer) and then
runs three pure checks on the resulting pattern.  The resulting pattern
is modelled directly: `wings` holds the WINGS orbit permutation bytes
and `centers` the CENTERS orbit permutation bytes. -/

/-- Translated from `EDGE_TO_INDEX` in `cube4x4x4.rs` (the values of the
`EdgePairIndex` entries, in order). -/
def EDGE_TO_INDEX : List ℕ :=
  [0, 1, 2, 3,
   3, 11, 23, 17,
   2, 9, 20, 11,
   1, 19, 21, 9,
   0, 17, 22, 19,
   20, 21, 22, 23]

/-- Translated from `is_high` in `cube4x4x4.rs`: a position or piece is
high when `EDGE_TO_INDEX[x] == x`. -/
def is_high (x : ℕ) : Bool := EDGE_TO_INDEX.getD x 0 == x

/-- Translated from the `SideCenter` enum in `cube4x4x4.rs`. -/
inductive SideCenter where
  | L
  | R
deriving DecidableEq

/-- Translated from the `Phase2EdgeOrientation` enum in `cube4x4x4.rs`. -/
inductive Phase2EdgeOrientation where
  | Unknown
  | Oriented
  | Misoriented
deriving DecidableEq

/-- Translated from `PHASE2_SOLVED_SIDE_CENTER_CASES` in `cube4x4x4.rs`:
twelve (top-slab, bottom-slab) cases over `{L,R}^4 × {L,R}^4`. -/
def PHASE2_SOLVED_SIDE_CENTER_CASES : List (List SideCenter × List SideCenter) :=
  [([SideCenter.L, SideCenter.L, SideCenter.L, SideCenter.L],
    [SideCenter.R, SideCenter.R, SideCenter.R, SideCenter.R]),
   ([SideCenter.R, SideCenter.R, SideCenter.R, SideCenter.R],
    [SideCenter.L, SideCenter.L, SideCenter.L, SideCenter.L]),
   ([SideCenter.L, SideCenter.L, SideCenter.R, SideCenter.R],
    [SideCenter.L, SideCenter.L, SideCenter.R, SideCenter.R]),
   ([SideCenter.R, SideCenter.R, SideCenter.L, SideCenter.L],
    [SideCenter.R, SideCenter.R, SideCenter.L, SideCenter.L]),
   ([SideCenter.R, SideCenter.R, SideCenter.L, SideCenter.L],
    [SideCenter.L, SideCenter.L, SideCenter.R, SideCenter.R]),
   ([SideCenter.L, SideCenter.L, SideCenter.R, SideCenter.R],
    [SideCenter.R, SideCenter.R, SideCenter.L, SideCenter.L]),
   ([SideCenter.L, SideCenter.R, SideCenter.R, SideCenter.L],
    [SideCenter.L, SideCenter.R, SideCenter.R, SideCenter.L]),
   ([SideCenter.R, SideCenter.L, SideCenter.L, SideCenter.R],
    [SideCenter.R, SideCenter.L, SideCenter.L, SideCenter.R]),
   ([SideCenter.L, SideCenter.R, SideCenter.R, SideCenter.L],
    [SideCenter.R, SideCenter.L, SideCenter.L, SideCenter.R]),
   ([SideCenter.R, SideCenter.L, SideCenter.L, SideCenter.R],
    [SideCenter.L, SideCenter.R, SideCenter.R, SideCenter.L]),
   ([SideCenter.L, SideCenter.R, SideCenter.L, SideCenter.R],
    [SideCenter.L, SideCenter.R, SideCenter.L, SideCenter.R]),
   ([SideCenter.R, SideCenter.L, SideCenter.R, SideCenter.L],
    [SideCenter.R, SideCenter.L, SideCenter.R, SideCenter.L])]

/-- Translated from `is_solve_center_center_case` in `cube4x4x4.rs`:
linear scan for an equal entry. -/
def is_solve_center_center_case (c : List SideCenter × List SideCenter) : Bool :=
  PHASE2_SOLVED_SIDE_CENTER_CASES.contains c

/-- The pattern `should_accept_solution` inspects after applying the
candidate algorithm to the cached post-phase-1 full pattern: the WINGS
orbit permutation and the CENTERS orbit permutation. -/
structure Pattern4 where
  wings : Fin 24 → Fin 24
  centers : Fin 24 → Fin 24

/-- The L/R classification of a center position: piece index `< 8` is L,
otherwise R (from the `map` over `[4, 5, 6, 7, 12, 13, 14, 15]` in
`should_accept_solution`). -/
def sideAt (p : Pattern4) (idx : Fin 24) : SideCenter :=
  if (p.centers idx).val < 8 then SideCenter.L else SideCenter.R

/-- The `[[E, F, G, H], [M, N, O, P]]` case built by
`should_accept_solution` from positions `4..7` and `12..15`. -/
def centerCase (p : Pattern4) : List SideCenter × List SideCenter :=
  ([sideAt p 4, sideAt p 5, sideAt p 6, sideAt p 7],
   [sideAt p 12, sideAt p 13, sideAt p 14, sideAt p 15])

/-- The pair index of the piece sitting at `pos`:
`EDGE_TO_INDEX[piece]`. -/
def pairIndexAt (p : Pattern4) (pos : Fin 24) : ℕ :=
  EDGE_TO_INDEX.getD (p.wings pos).val 0

/-- The `pair_orientation` computed by the edge loop at a position:
`Oriented` when the piece's highness matches the position's highness. -/
def pairOrientationAt (p : Pattern4) (pos : Fin 24) : Phase2EdgeOrientation :=
  if is_high (p.wings pos).val = is_high pos.val then
    Phase2EdgeOrientation.Oriented
  else
    Phase2EdgeOrientation.Misoriented

/-- The state threaded through the `for position in 0..23` loop of
`should_accept_solution`: the misoriented count, the
`known_pair_orientations` array, and the running `accept` flag. -/
structure EdgeLoopState where
  edge_parity : ℕ
  known : List Phase2EdgeOrientation
  accept : Bool

/-- One iteration of the edge loop of `should_accept_solution`:
compute the pair orientation (counting misorientations), then compare
with `known_pair_orientations[EDGE_TO_INDEX[piece]]`, recording it if
unknown and clearing `accept` on disagreement. -/
def edgeLoopStep (p : Pattern4) (st : EdgeLoopState) (pos : Fin 24) : EdgeLoopState :=
  let pair_orientation := pairOrientationAt p pos
  let ep := match pair_orientation with
    | Phase2EdgeOrientation.Misoriented => st.edge_parity + 1
    | _ => st.edge_parity
  let idx := pairIndexAt p pos
  match st.known.getD idx Phase2EdgeOrientation.Unknown with
  | Phase2EdgeOrientation.Unknown =>
    { edge_parity := ep, known := st.known.set idx pair_orientation, accept := st.accept }
  | known_pair_orientation =>
    if known_pair_orientation ≠ pair_orientation then
      { edge_parity := ep, known := st.known, accept := false }
    else
      { edge_parity := ep, known := st.known, accept := st.accept }

/-- The edge loop itself, iterated over a list of positions. -/
def edgeLoopGo (p : Pattern4) : List (Fin 24) → EdgeLoopState → EdgeLoopState
  | [], st => st
  | pos :: rest, st => edgeLoopGo p rest (edgeLoopStep p st pos)

/-- The positions `0..23` (exclusive) the Rust loop iterates over:
positions 0 through 22 of the 24 wing positions. -/
def phase2SeenPositions : List (Fin 24) := (List.finRange 23).map Fin.castSucc

/-- All 24 wing positions. -/
def phase2AllPositions : List (Fin 24) := List.finRange 24

/-- The WINGS permutation byte slice of the pattern, as read by
`basic_parity` in `should_accept_solution`. -/
def wingsByteSlice (p : Pattern4) : List ℕ :=
  (List.finRange 24).map (fun i => (p.wings i).val)

/-- Translated from `Phase2AdditionalSolutionCondition::should_accept_solution`
(after the out-of-src application of the candidate algorithm to the
cached pattern): `accept` starts true and is cleared by any failed
check — the center case scan, the `basic_parity` check on the wings
byte slice, a pair-orientation disagreement inside the
`for position in 0..23` loop, or a misoriented count not divisible
by 4. -/
def should_accept_solution (p : Pattern4) : Bool :=
  let accept0 := true
  let accept1 := if is_solve_center_center_case (centerCase p) then accept0 else false
  let accept2 := if basic_parity (wingsByteSlice p) = BasicParity.Even then accept1 else false
  let st := edgeLoopGo p phase2SeenPositions
    { edge_parity := 0, known := List.replicate 24 Phase2EdgeOrientation.Unknown,
      accept := accept2 }
  if st.edge_parity % 4 = 0 then st.accept else false

/-- The pair-orientation consistency condition of the claim, over a given
set of positions: any two positions holding wings of the same pair have
equal pair orientations. -/
def pairConsistentOn (p : Pattern4) (positions : List (Fin 24)) : Prop :=
  ∀ pos ∈ positions, ∀ pos' ∈ positions,
    pairIndexAt p pos = pairIndexAt p pos' →
    pairOrientationAt p pos = pairOrientationAt p pos'

instance (p : Pattern4) (positions : List (Fin 24)) :
    Decidable (pairConsistentOn p positions) := by
  unfold pairConsistentOn
  infer_instance

/-- The number of misoriented wings over a given set of positions. -/
def misorientedCountOn (p : Pattern4) (positions : List (Fin 24)) : ℕ :=
  positions.countP
    (fun pos => decide (pairOrientationAt p pos = Phase2EdgeOrientation.Misoriented))

/-- The conditions claim C1 states for acceptance, with the pair
consistency and the misoriented count taken over all 24 wing
positions. -/
def phase2_accept_claimed_conditions (p : Pattern4) : Prop :=
  centerCase p ∈ PHASE2_SOLVED_SIDE_CENTER_CASES ∧
  basic_parity (wingsByteSlice p) = BasicParity.Even ∧
  pairConsistentOn p phase2AllPositions ∧
  misorientedCountOn p phase2AllPositions % 4 = 0

instance (p : Pattern4) : Decidable (phase2_accept_claimed_conditions p) := by
  unfold phase2_accept_claimed_conditions
  infer_instance

/-- A concrete applied pattern: wings swapped in the two transpositions
(0 16) and (6 23), centers solved.  Pair 0 (`{0, 16}`) and pair 23
(`{23, 6}`) are each fully misoriented, every other wing is oriented,
and the permutation is even. -/
def patternCounterexample : Pattern4 where
  wings := fun i =>
    if i = 0 then 16 else if i = 6 then 23 else if i = 16 then 0 else
      if i = 23 then 6 else i
  centers := fun i => i

/-- C1 counterexample: on `patternCounterexample` all conditions of the
claim hold (the full misoriented count is 4 and all pairs are
consistent), but `should_accept_solution` returns false: the loop skips
position 23, counts only 3 misorientations, and 3 is not divisible
by 4. -/
theorem phase2_accept_counterexample :
    should_accept_solution patternCounterexample = false ∧
      phase2_accept_claimed_conditions patternCounterexample := by
  constructor
  · decide
  · decide

/-- Every `EDGE_TO_INDEX` lookup lands below 24 (out-of-range lookups
take the default 0). -/
theorem edge_to_index_lt (x : ℕ) : EDGE_TO_INDEX.getD x 0 < 24 := by
  rcases Nat.lt_or_ge x 24 with h | h
  · interval_cases x <;> decide
  · rw [List.getD_eq_getElem?_getD, List.getElem?_eq_none (by simpa [EDGE_TO_INDEX] using h)]
    decide

/-- The edge loop never produces the `Unknown` orientation at a
position. -/
theorem pairOrientationAt_ne_unknown (p : Pattern4) (pos : Fin 24) :
    pairOrientationAt p pos ≠ Phase2EdgeOrientation.Unknown := by
  unfold pairOrientationAt
  split <;> simp

/-- The orientation recorded for pair `k` by the first position among
`done` holding a wing of pair `k` (`Unknown` when there is none). -/
def firstOrientation (p : Pattern4) (done : List (Fin 24)) (k : ℕ) :
    Phase2EdgeOrientation :=
  match done.find? (fun pos => decide (pairIndexAt p pos = k)) with
  | none => Phase2EdgeOrientation.Unknown
  | some pos => pairOrientationAt p pos

theorem firstOrientation_eq_unknown_iff (p : Pattern4) (done : List (Fin 24)) (k : ℕ) :
    firstOrientation p done k = Phase2EdgeOrientation.Unknown ↔
      done.find? (fun pos => decide (pairIndexAt p pos = k)) = none := by
  unfold firstOrientation
  cases h : done.find? (fun pos => decide (pairIndexAt p pos = k)) with
  | none => simp
  | some q => simp [pairOrientationAt_ne_unknown p q]

theorem firstOrientation_append_singleton (p : Pattern4) (done : List (Fin 24))
    (pos : Fin 24) (k : ℕ) :
    firstOrientation p (done ++ [pos]) k =
      match done.find? (fun r => decide (pairIndexAt p r = k)) with
      | some q => pairOrientationAt p q
      | none =>
        if pairIndexAt p pos = k then pairOrientationAt p pos
        else Phase2EdgeOrientation.Unknown := by
  unfold firstOrientation
  rw [List.find?_append]
  cases h : done.find? (fun r => decide (pairIndexAt p r = k)) with
  | some q => rfl
  | none =>
    by_cases hp : pairIndexAt p pos = k
    · simp [hp]
    · simp [hp]

theorem pairConsistentOn_append_singleton_of_none (p : Pattern4)
    (done : List (Fin 24)) (pos : Fin 24)
    (hnone : done.find? (fun q => decide (pairIndexAt p q = pairIndexAt p pos)) = none) :
    pairConsistentOn p (done ++ [pos]) ↔ pairConsistentOn p done := by
  rw [List.find?_eq_none] at hnone
  constructor
  · intro h q hq q' hq' heq
    exact h q (List.mem_append_left _ hq) q' (List.mem_append_left _ hq') heq
  · intro h q hq q' hq' heq
    rcases List.mem_append.mp hq with hq | hq <;>
      rcases List.mem_append.mp hq' with hq' | hq'
    · exact h q hq q' hq' heq
    · have he : q' = pos := by simpa using hq'
      rw [he] at heq
      exact absurd heq (by simpa using hnone q hq)
    · have he : q = pos := by simpa using hq
      rw [he] at heq
      exact absurd heq.symm (by simpa using hnone q' hq')
    · have he : q = pos := by simpa using hq
      have he' : q' = pos := by simpa using hq'
      rw [he, he']

theorem pairConsistentOn_append_singleton_of_some_eq (p : Pattern4)
    (done : List (Fin 24)) (pos q : Fin 24)
    (hfind : done.find? (fun r => decide (pairIndexAt p r = pairIndexAt p pos)) = some q)
    (hor : pairOrientationAt p q = pairOrientationAt p pos) :
    pairConsistentOn p (done ++ [pos]) ↔ pairConsistentOn p done := by
  have hqmem : q ∈ done := List.mem_of_find?_eq_some hfind
  have hqidx : pairIndexAt p q = pairIndexAt p pos := by
    simpa using List.find?_some hfind
  constructor
  · intro h r hr r' hr' heq
    exact h r (List.mem_append_left _ hr) r' (List.mem_append_left _ hr') heq
  · intro h r hr r' hr' heq
    rcases List.mem_append.mp hr with hr | hr <;>
      rcases List.mem_append.mp hr' with hr' | hr'
    · exact h r hr r' hr' heq
    · have he : r' = pos := by simpa using hr'
      rw [he] at heq
      have h1 : pairOrientationAt p r = pairOrientationAt p q :=
        h r hr q hqmem (heq.trans hqidx.symm)
      rw [he]
      exact h1.trans hor
    · have he : r = pos := by simpa using hr
      rw [he] at heq
      have h1 : pairOrientationAt p r' = pairOrientationAt p q :=
        h r' hr' q hqmem (heq.symm.trans hqidx.symm)
      rw [he]
      exact (h1.trans hor).symm
    · have he : r = pos := by simpa using hr
      have he' : r' = pos := by simpa using hr'
      rw [he, he']

theorem pairConsistentOn_append_singleton_of_some_ne (p : Pattern4)
    (done : List (Fin 24)) (pos q : Fin 24)
    (hfind : done.find? (fun r => decide (pairIndexAt p r = pairIndexAt p pos)) = some q)
    (hor : pairOrientationAt p q ≠ pairOrientationAt p pos) :
    ¬pairConsistentOn p (done ++ [pos]) := by
  intro h
  have hqmem : q ∈ done := List.mem_of_find?_eq_some hfind
  have hqidx : pairIndexAt p q = pairIndexAt p pos := by
    simpa using List.find?_some hfind
  exact hor (h q (List.mem_append_left _ hqmem) pos
    (List.mem_append_right _ (by simp)) hqidx)
/-- The misoriented count update of a single loop iteration. -/
theorem edgeLoopStep_parity (p : Pattern4) (st : EdgeLoopState) (pos : Fin 24) :
    (edgeLoopStep p st pos).edge_parity =
      st.edge_parity +
        (if pairOrientationAt p pos = Phase2EdgeOrientation.Misoriented then 1 else 0) := by
  simp only [edgeLoopStep]
  cases hkv : st.known.getD (pairIndexAt p pos) Phase2EdgeOrientation.Unknown <;>
    cases hor : pairOrientationAt p pos <;> simp [hor]

/-- When the pair is unseen, the iteration records the orientation. -/
theorem edgeLoopStep_known_of_unknown (p : Pattern4) (st : EdgeLoopState) (pos : Fin 24)
    (hkv : st.known.getD (pairIndexAt p pos) Phase2EdgeOrientation.Unknown =
      Phase2EdgeOrientation.Unknown) :
    (edgeLoopStep p st pos).known =
      st.known.set (pairIndexAt p pos) (pairOrientationAt p pos) := by
  simp only [edgeLoopStep]
  rw [hkv]

/-- When the pair was already recorded, the `known` array is unchanged. -/
theorem edgeLoopStep_known_of_some (p : Pattern4) (st : EdgeLoopState) (pos : Fin 24)
    (o : Phase2EdgeOrientation)
    (hkv : st.known.getD (pairIndexAt p pos) Phase2EdgeOrientation.Unknown = o)
    (ho : o ≠ Phase2EdgeOrientation.Unknown) :
    (edgeLoopStep p st pos).known = st.known := by
  simp only [edgeLoopStep]
  rw [hkv]
  cases o with
  | Unknown => exact absurd rfl ho
  | Oriented =>
    split
    · simp_all
    · split <;> rfl
  | Misoriented =>
    split
    · simp_all
    · split <;> rfl

/-- When the pair is unseen, the `accept` flag is unchanged. -/
theorem edgeLoopStep_accept_of_unknown (p : Pattern4) (st : EdgeLoopState) (pos : Fin 24)
    (hkv : st.known.getD (pairIndexAt p pos) Phase2EdgeOrientation.Unknown =
      Phase2EdgeOrientation.Unknown) :
    (edgeLoopStep p st pos).accept = st.accept := by
  simp only [edgeLoopStep]
  rw [hkv]

/-- When the recorded orientation agrees, the `accept` flag is
unchanged. -/
theorem edgeLoopStep_accept_of_eq (p : Pattern4) (st : EdgeLoopState) (pos : Fin 24)
    (hkv : st.known.getD (pairIndexAt p pos) Phase2EdgeOrientation.Unknown =
      pairOrientationAt p pos) :
    (edgeLoopStep p st pos).accept = st.accept := by
  simp only [edgeLoopStep]
  rw [hkv]
  cases hor : pairOrientationAt p pos with
  | Unknown => exact absurd hor (pairOrientationAt_ne_unknown p pos)
  | Oriented => simp
  | Misoriented => simp

/-- When the recorded orientation disagrees, the iteration clears
`accept`. -/
theorem edgeLoopStep_accept_of_ne (p : Pattern4) (st : EdgeLoopState) (pos : Fin 24)
    (o : Phase2EdgeOrientation)
    (hkv : st.known.getD (pairIndexAt p pos) Phase2EdgeOrientation.Unknown = o)
    (ho : o ≠ Phase2EdgeOrientation.Unknown) (hne : o ≠ pairOrientationAt p pos) :
    (edgeLoopStep p st pos).accept = false := by
  simp only [edgeLoopStep]
  rw [hkv]
  cases o with
  | Unknown => exact absurd rfl ho
  | Oriented =>
    split
    · simp_all
    · rw [if_pos hne]
  | Misoriented =>
    split
    · simp_all
    · rw [if_pos hne]

/-- The edge loop invariant: running the loop over the remaining
positions `l`, from a state whose `known` array records the
first-encountered orientation per pair over the already-processed
positions `done`, whose `accept` flag is the initial flag conjoined
with the consistency of `done`, and whose misoriented count is that of
`done`, yields the same data for `done ++ l`. -/
theorem edgeLoopGo_spec (p : Pattern4) (acc0 : Bool) (l : List (Fin 24)) :
    ∀ (done : List (Fin 24)) (st : EdgeLoopState),
      st.known.length = 24 →
      (∀ k, k < 24 →
        st.known.getD k Phase2EdgeOrientation.Unknown = firstOrientation p done k) →
      st.accept = (acc0 && decide (pairConsistentOn p done)) →
      st.edge_parity = misorientedCountOn p done →
      (edgeLoopGo p l st).accept =
          (acc0 && decide (pairConsistentOn p (done ++ l))) ∧
        (edgeLoopGo p l st).edge_parity = misorientedCountOn p (done ++ l) := by
  induction l with
  | nil =>
    intro done st h1 h2 h3 h4
    simpa [edgeLoopGo] using ⟨h3, h4⟩
  | cons pos rest ih =>
    intro done st h1 h2 h3 h4
    have hidx : pairIndexAt p pos < 24 := edge_to_index_lt _
    have hknownidx :
        st.known.getD (pairIndexAt p pos) Phase2EdgeOrientation.Unknown =
          firstOrientation p done (pairIndexAt p pos) := h2 _ hidx
    have hassoc : (done ++ [pos]) ++ rest = done ++ pos :: rest := by simp
    have hgo : edgeLoopGo p (pos :: rest) st = edgeLoopGo p rest (edgeLoopStep p st pos) :=
      rfl
    have hcount : misorientedCountOn p (done ++ [pos]) =
        misorientedCountOn p done +
          (if pairOrientationAt p pos = Phase2EdgeOrientation.Misoriented then 1
           else 0) := by
      unfold misorientedCountOn
      rw [List.countP_append, List.countP_singleton]
      by_cases hmis : pairOrientationAt p pos = Phase2EdgeOrientation.Misoriented <;>
        simp [hmis]
    have hparity : (edgeLoopStep p st pos).edge_parity =
        misorientedCountOn p (done ++ [pos]) := by
      rw [edgeLoopStep_parity, h4, hcount]
    rcases hfd : done.find? (fun r => decide (pairIndexAt p r = pairIndexAt p pos)) with
      _ | q
    · have hkv : st.known.getD (pairIndexAt p pos) Phase2EdgeOrientation.Unknown =
          Phase2EdgeOrientation.Unknown := by
        rw [hknownidx, (firstOrientation_eq_unknown_iff p done _).mpr hfd]
      have hknown2 := edgeLoopStep_known_of_unknown p st pos hkv
      have haccept2 := edgeLoopStep_accept_of_unknown p st pos hkv
      have key := ih (done ++ [pos]) (edgeLoopStep p st pos) ?_ ?_ ?_ hparity
      · rw [hgo]
        rw [hassoc] at key
        exact key
      · rw [hknown2]
        simpa using h1
      · intro k hk
        rw [hknown2, firstOrientation_append_singleton, List.getD_eq_getElem?_getD]
        by_cases hkeq : k = pairIndexAt p pos
        · subst hkeq
          rw [List.getElem?_set_self (by rw [h1]; exact hidx), hfd]
          simp
        · rw [List.getElem?_set_ne (fun habs => hkeq habs.symm),
            ← List.getD_eq_getElem?_getD, h2 k hk]
          cases hfd2 : done.find? (fun r => decide (pairIndexAt p r = k)) with
          | some q2 =>
            unfold firstOrientation
            rw [hfd2]
          | none =>
            unfold firstOrientation
            rw [hfd2, if_neg (fun habs => hkeq habs.symm)]
      · rw [haccept2, h3]
        congr 1
        rw [decide_eq_decide]
        exact (pairConsistentOn_append_singleton_of_none p done pos hfd).symm
    · have hkv : st.known.getD (pairIndexAt p pos) Phase2EdgeOrientation.Unknown =
          pairOrientationAt p q := by
        rw [hknownidx]
        unfold firstOrientation
        rw [hfd]
      have hknown2 := edgeLoopStep_known_of_some p st pos (pairOrientationAt p q) hkv
        (pairOrientationAt_ne_unknown p q)
      have hknowninv : ∀ k, k < 24 →
          (edgeLoopStep p st pos).known.getD k Phase2EdgeOrientation.Unknown =
            firstOrientation p (done ++ [pos]) k := by
        intro k hk
        rw [hknown2, firstOrientation_append_singleton, h2 k hk]
        cases hfd2 : done.find? (fun r => decide (pairIndexAt p r = k)) with
        | some q2 =>
          unfold firstOrientation
          rw [hfd2]
        | none =>
          unfold firstOrientation
          rw [hfd2, if_neg ?_]
          intro habs
          rw [← habs] at hfd2
          rw [hfd2] at hfd
          exact Option.noConfusion hfd
      by_cases hagree : pairOrientationAt p q = pairOrientationAt p pos
      · have haccept2 := edgeLoopStep_accept_of_eq p st pos (hkv.trans hagree)
        have key := ih (done ++ [pos]) (edgeLoopStep p st pos)
          (by rw [hknown2]; exact h1) hknowninv ?_ hparity
        · rw [hgo]
          rw [hassoc] at key
          exact key
        · rw [haccept2, h3]
          congr 1
          rw [decide_eq_decide]
          exact (pairConsistentOn_append_singleton_of_some_eq p done pos q hfd
            hagree).symm
      · have haccept2 := edgeLoopStep_accept_of_ne p st pos (pairOrientationAt p q) hkv
          (pairOrientationAt_ne_unknown p q) hagree
        have key := ih (done ++ [pos]) (edgeLoopStep p st pos)
          (by rw [hknown2]; exact h1) hknowninv ?_ hparity
        · rw [hgo]
          rw [hassoc] at key
          exact key
        · rw [haccept2]
          have hnc := pairConsistentOn_append_singleton_of_some_ne p done pos q hfd
            hagree
          simp [hnc]

theorem is_solve_center_center_case_iff (c : List SideCenter × List SideCenter) :
    is_solve_center_center_case c = true ↔ c ∈ PHASE2_SOLVED_SIDE_CENTER_CASES := by
  unfold is_solve_center_center_case
  rw [List.contains_iff_exists_mem_beq]
  constructor
  · rintro ⟨x, hx, hbeq⟩
    have he : c = x := by simpa using hbeq
    rwa [he]
  · intro h
    exact ⟨c, h, by simp⟩

set_option maxHeartbeats 1000000 in
/-- C1 amended: `should_accept_solution` (on the pattern obtained by
applying the candidate algorithm to the cached post-phase-1 full
pattern) accepts iff the centers match one of the 12 solved side-center
cases, the wing permutation parity is even, and — over the 23 positions
`0..22` that the loop examines (position 23 is never read) — all wings
of each pair agree on orientation and the misoriented count is
divisible by 4. -/
theorem phase2_accept_amended_iff (p : Pattern4) :
    should_accept_solution p = true ↔
      (centerCase p ∈ PHASE2_SOLVED_SIDE_CENTER_CASES ∧
        basic_parity (wingsByteSlice p) = BasicParity.Even ∧
        pairConsistentOn p phase2SeenPositions ∧
        misorientedCountOn p phase2SeenPositions % 4 = 0) := by
  show (if (edgeLoopGo p phase2SeenPositions
        (EdgeLoopState.mk 0 (List.replicate 24 Phase2EdgeOrientation.Unknown)
          (if basic_parity (wingsByteSlice p) = BasicParity.Even then
            (if is_solve_center_center_case (centerCase p) then true else false)
          else false))).edge_parity % 4 = 0 then
      (edgeLoopGo p phase2SeenPositions
        (EdgeLoopState.mk 0 (List.replicate 24 Phase2EdgeOrientation.Unknown)
          (if basic_parity (wingsByteSlice p) = BasicParity.Even then
            (if is_solve_center_center_case (centerCase p) then true else false)
          else false))).accept
    else false) = true ↔ _
  set acc2 := (if basic_parity (wingsByteSlice p) = BasicParity.Even then
      (if is_solve_center_center_case (centerCase p) then true else false)
    else false) with hacc2
  clear_value acc2
  have hconsnil : pairConsistentOn p [] := by
    intro q hq
    exact absurd hq (List.not_mem_nil q)
  have hinit1 : (List.replicate 24 Phase2EdgeOrientation.Unknown).length = 24 := by
    simp
  have hinit2 : ∀ k, k < 24 →
      (List.replicate 24 Phase2EdgeOrientation.Unknown).getD k
          Phase2EdgeOrientation.Unknown = firstOrientation p [] k := by
    intro k hk
    rw [List.getD_eq_getElem?_getD, List.getElem?_replicate_of_lt hk]
    rfl
  have hinit3 : acc2 = (acc2 && decide (pairConsistentOn p [])) := by
    rw [decide_eq_true hconsnil, Bool.and_true]
  have hspec := edgeLoopGo_spec p acc2 phase2SeenPositions []
    (EdgeLoopState.mk 0 (List.replicate 24 Phase2EdgeOrientation.Unknown) acc2)
    hinit1 hinit2 hinit3 rfl
  rcases hspec with ⟨hacc, hep⟩
  rw [List.nil_append] at hacc hep
  rw [hep, hacc]
  by_cases hcnt : misorientedCountOn p phase2SeenPositions % 4 = 0
  · rw [if_pos hcnt, hacc2]
    by_cases hpar : basic_parity (wingsByteSlice p) = BasicParity.Even
    · rw [if_pos hpar]
      by_cases hcen : is_solve_center_center_case (centerCase p) = true
      · rw [if_pos hcen]
        simp only [Bool.true_and, decide_eq_true_eq]
        constructor
        · intro hcons
          exact ⟨(is_solve_center_center_case_iff _).mp hcen, hpar, hcons, hcnt⟩
        · rintro ⟨-, -, hcons, -⟩
          exact hcons
      · rw [if_neg hcen]
        simp only [Bool.false_and]
        constructor
        · intro h
          exact absurd h (by simp)
        · rintro ⟨hc, -, -, -⟩
          exact absurd ((is_solve_center_center_case_iff _).mpr hc) hcen
    · rw [if_neg hpar]
      simp only [Bool.false_and]
      constructor
      · intro h
        exact absurd h (by simp)
      · rintro ⟨-, hp2, -, -⟩
        exact absurd hp2 hpar
  · rw [if_neg hcnt]
    constructor
    · intro h
      exact absurd h (by simp)
    · rintro ⟨-, -, -, hc4⟩
      exact absurd hc4 hcnt

/-! ## fillmovetable (Phase2SymmCoords, cube4x4x4.rs)

The BFS of `Phase2SymmCoords::fillmovetable` is embedded over an
abstract pattern type `P` with a coordinate function and a list of move
transformations (the puzzle data itself — kpuzzle definitions and move
actions — lives outside `src/`).  The `[[usize; PHASE2_MOVECOUNT]; N]`
table is a list of rows; the queue, `qget` and `qput` are explicit
state.  The outer `while qget < qput` loop runs with fuel `numCoords`,
which suffices because the queue only ever holds patterns of pairwise
distinct coordinates. -/

/-- Translated from `const INF: usize = 1000000000` in `cube4x4x4.rs`. -/
def INF : ℕ := 1000000000

/-- Read `tab[r][c]` (out-of-range reads default to 0; the program only
reads in range). -/
def getCell (tab : List (List ℕ)) (r c : ℕ) : ℕ := (tab.getD r []).getD c 0

/-- Write `tab[r][c] = v` (out-of-range writes are dropped; the program
only writes in range). -/
def setCell (tab : List (List ℕ)) (r c v : ℕ) : List (List ℕ) :=
  tab.set r ((tab.getD r []).set c v)

/-- The state of the BFS in `fillmovetable`: the move table, the queue
`q`, and the indices `qget` and `qput`. -/
structure BfsState (P : Type) where
  tab : List (List ℕ)
  q : List P
  qget : ℕ
  qput : ℕ

/-- Translated from the `for m in &moves.flat` loop of `fillmovetable`:
apply the move to the popped pattern, store the destination coordinate
at `tab[src][moveind]`, and if `tab[dst][0] == INF` mark it, push the
destination pattern and bump `qput`; then store `tab[src][moveind]`
again (as the source does) and advance `moveind`. -/
def fillMovesLoop {P : Type} (coordf : P → ℕ) (src : ℕ) (pat : P) :
    List (P → P) → ℕ → BfsState P → BfsState P
  | [], _, s => s
  | mv :: rest, moveind, s =>
    let dststate := mv pat
    let dst := coordf dststate
    let tab1 := setCell s.tab src moveind dst
    let s2 : BfsState P :=
      if getCell tab1 dst 0 = INF then
        { tab := setCell (setCell tab1 dst 0 0) src moveind dst,
          q := s.q ++ [dststate], qget := s.qget, qput := s.qput + 1 }
      else
        { tab := setCell tab1 src moveind dst, q := s.q, qget := s.qget,
          qput := s.qput }
    fillMovesLoop coordf src pat rest (moveind + 1) s2

/-- Translated from the body of the `while qget < qput` loop of
`fillmovetable`: pop `q[qget]`, mark its coordinate row
(`tab[src][0] = 0`), run the move loop, and advance `qget`. -/
def bfsStep {P : Type} (coordf : P → ℕ) (moves : List (P → P)) (start : P)
    (s : BfsState P) : BfsState P :=
  if s.qget < s.qput then
    let pat := s.q.getD s.qget start
    let src := coordf pat
    let s1 : BfsState P :=
      { tab := setCell s.tab src 0 0, q := s.q, qget := s.qget, qput := s.qput }
    let s2 := fillMovesLoop coordf src pat moves 0 s1
    { tab := s2.tab, q := s2.q, qget := s2.qget + 1, qput := s2.qput }
  else s

/-- The fuelled `while qget < qput` loop. -/
def bfsIter {P : Type} (coordf : P → ℕ) (moves : List (P → P)) (start : P) :
    ℕ → BfsState P → BfsState P
  | 0, s => s
  | n + 1, s => bfsIter coordf moves start n (bfsStep coordf moves start s)

/-- Translated from `Phase2SymmCoords::fillmovetable`: initialize every
`tab[i][0]` to `INF` (rows start zeroed, as the Rust arrays do), seed
the queue with the family's start pattern, and run the BFS.  `numCoords`
fuel always completes the loop. -/
def fillmovetable {P : Type} (coordf : P → ℕ) (moves : List (P → P)) (start : P)
    (numCoords rowLen : ℕ) : BfsState P :=
  let tab0 := (List.replicate numCoords (List.replicate rowLen 0)).map
    (fun row => row.set 0 INF)
  bfsIter coordf moves start numCoords
    { tab := tab0, q := [start], qget := 0, qput := 1 }

/-- Patterns reachable from the start pattern by applying moves of the
generator list. -/
inductive ReachableFrom {P : Type} (moves : List (P → P)) (start : P) : P → Prop where
  | refl : ReachableFrom moves start start
  | step : ∀ (p : P) (mv : P → P), ReachableFrom moves start p → mv ∈ moves →
      ReachableFrom moves start (mv p)

theorem length_setCell (tab : List (List ℕ)) (r c v : ℕ) :
    (setCell tab r c v).length = tab.length := by
  unfold setCell
  exact List.length_set tab r _

theorem rowLength_setCell (tab : List (List ℕ)) (r c v r' : ℕ) :
    ((setCell tab r c v).getD r' []).length = (tab.getD r' []).length := by
  unfold setCell
  by_cases hr : r = r'
  · subst hr
    by_cases hlen : r < tab.length
    · rw [List.getD_eq_getElem?_getD, List.getElem?_set_self hlen]
      simp
    · rw [List.set_eq_of_length_le (by omega)]
  · rw [List.getD_eq_getElem?_getD, List.getElem?_set_ne hr,
      ← List.getD_eq_getElem?_getD]

theorem getCell_setCell_same (tab : List (List ℕ)) (r c v : ℕ)
    (hr : r < tab.length) (hcol : c < (tab.getD r []).length) :
    getCell (setCell tab r c v) r c = v := by
  simp only [List.getD_eq_getElem?_getD] at hcol
  simp only [getCell, setCell, List.getD_eq_getElem?_getD]
  rw [List.getElem?_set_self hr]
  simp only [Option.getD_some]
  rw [List.getElem?_set_self hcol]
  rfl

theorem getCell_setCell_row_ne (tab : List (List ℕ)) (r c v r' c' : ℕ)
    (hne : r' ≠ r) :
    getCell (setCell tab r c v) r' c' = getCell tab r' c' := by
  simp only [getCell, setCell, List.getD_eq_getElem?_getD]
  rw [List.getElem?_set_ne (fun h => hne h.symm)]

theorem getCell_setCell_col_ne (tab : List (List ℕ)) (r c v c' : ℕ)
    (hne : c' ≠ c) :
    getCell (setCell tab r c v) r c' = getCell tab r c' := by
  simp only [getCell, setCell, List.getD_eq_getElem?_getD]
  by_cases hlen : r < tab.length
  · rw [List.getElem?_set_self hlen]
    simp only [Option.getD_some]
    rw [List.getElem?_set_ne (fun h => hne h.symm)]
  · rw [List.set_eq_of_length_le (by omega)]

theorem getCell_setCell_ne (tab : List (List ℕ)) (r c v r' c' : ℕ)
    (hne : r' ≠ r ∨ c' ≠ c) :
    getCell (setCell tab r c v) r' c' = getCell tab r' c' := by
  rcases hne with hne | hne
  · exact getCell_setCell_row_ne tab r c v r' c' hne
  · by_cases hr : r' = r
    · subst hr
      exact getCell_setCell_col_ne tab r' c v c' hne
    · exact getCell_setCell_row_ne tab r c v r' c' hr

/-- What one run of the inner move loop does to the BFS state: the queue
is extended by the freshly-discovered patterns, `qput` advances by their
number, their coordinates are new and pairwise distinct, markers grow by
exactly those coordinates, rows of already-marked other coordinates are
untouched, the cells of the source row below `moveind` are untouched,
the cells at `moveind + j` hold the destination coordinates, and every
destination row ends up marked. -/
structure FillMovesOut {P : Type} (coordf : P → ℕ) (numCoords rowLen src : ℕ)
    (pat : P) (mvs : List (P → P)) (moveind : ℕ)
    (s sFinal : BfsState P) (newpats : List P) : Prop where
  tab_len : sFinal.tab.length = numCoords
  row_len : ∀ r, (sFinal.tab.getD r []).length = (s.tab.getD r []).length
  q_eq : sFinal.q = s.q ++ newpats
  qget_eq : sFinal.qget = s.qget
  qput_eq : sFinal.qput = s.qput + newpats.length
  origin : ∀ p' ∈ newpats, ∃ mv ∈ mvs, p' = mv pat
  fresh : ∀ p' ∈ newpats, getCell s.tab (coordf p') 0 = INF
  coords_nodup : (newpats.map coordf).Nodup
  marker_iff : ∀ r, r < numCoords → (getCell sFinal.tab r 0 ≠ INF ↔
      getCell s.tab r 0 ≠ INF ∨ ∃ p' ∈ newpats, coordf p' = r)
  frame : ∀ r c, r ≠ src → getCell s.tab r 0 ≠ INF →
      getCell sFinal.tab r c = getCell s.tab r c
  src_low : ∀ c, c < moveind → getCell sFinal.tab src c = getCell s.tab src c
  src_cells : ∀ j, j < mvs.length →
      getCell sFinal.tab src (moveind + j) = coordf ((mvs.getD j id) pat)
  dst_marked : ∀ j, j < mvs.length →
      getCell sFinal.tab (coordf ((mvs.getD j id) pat)) 0 ≠ INF

theorem setCell_setCell_same (t : List (List ℕ)) (r c v v' : ℕ) :
    setCell (setCell t r c v) r c v' = setCell t r c v' := by
  by_cases hr : r < t.length
  · unfold setCell
    simp only [List.getD_eq_getElem?_getD]
    rw [List.getElem?_set_self hr]
    simp only [Option.getD_some]
    rw [List.set_set, List.set_set]
  · unfold setCell
    rw [List.set_eq_of_length_le (show t.length ≤ r by omega)]

theorem fillMovesLoop_spec {P : Type} (coordf : P → ℕ) (numCoords rowLen : ℕ)
    (hINF : numCoords ≤ INF) (hc : ∀ p, coordf p < numCoords)
    (src : ℕ) (hsrc : src < numCoords) (pat : P) (hrow0 : 0 < rowLen) :
    ∀ (mvs : List (P → P)) (moveind : ℕ) (s : BfsState P),
      s.tab.length = numCoords →
      (∀ r, r < numCoords → (s.tab.getD r []).length = rowLen) →
      moveind + mvs.length ≤ rowLen →
      getCell s.tab src 0 ≠ INF →
      ∃ newpats : List P,
        FillMovesOut coordf numCoords rowLen src pat mvs moveind s
          (fillMovesLoop coordf src pat mvs moveind s) newpats := by
  intro mvs
  induction mvs with
  | nil =>
    intro moveind s htl hrl hbound hsm
    refine ⟨[], ?_, ?_, ?_, rfl, ?_, ?_, ?_, ?_, ?_, ?_, ?_, ?_, ?_⟩
    · exact htl
    · intro r
      rfl
    · simp [fillMovesLoop]
    · simp [fillMovesLoop]
    · intro p' hp'
      exact absurd hp' (List.not_mem_nil p')
    · intro p' hp'
      exact absurd hp' (List.not_mem_nil p')
    · simp
    · intro r hr
      simp [fillMovesLoop]
    · intro r c hne hm
      rfl
    · intro c hcc
      rfl
    · intro j hj
      exact absurd hj (by simp)
    · intro j hj
      exact absurd hj (by simp)
  | cons mv rest ih =>
    intro moveind s htl hrl hbound hsm
    have hdst : coordf (mv pat) < numCoords := hc _
    have hmi : moveind < rowLen := by
      simp only [List.length_cons] at hbound
      omega
    have hrowsrc : moveind < (s.tab.getD src []).length := by
      rw [hrl src hsrc]
      exact hmi
    have htabsrc : src < s.tab.length := by
      rw [htl]
      exact hsrc
    have hfill : fillMovesLoop coordf src pat (mv :: rest) moveind s =
        fillMovesLoop coordf src pat rest (moveind + 1)
          (if getCell (setCell s.tab src moveind (coordf (mv pat)))
              (coordf (mv pat)) 0 = INF then
            { tab := setCell (setCell (setCell s.tab src moveind (coordf (mv pat)))
                (coordf (mv pat)) 0 0) src moveind (coordf (mv pat)),
              q := s.q ++ [mv pat], qget := s.qget, qput := s.qput + 1 }
          else
            { tab := setCell (setCell s.tab src moveind (coordf (mv pat))) src moveind
                (coordf (mv pat)),
              q := s.q, qget := s.qget, qput := s.qput }) := rfl
    have htab1src0 : getCell (setCell s.tab src moveind (coordf (mv pat))) src 0 ≠ INF := by
      by_cases h0 : moveind = 0
      · rw [h0, getCell_setCell_same s.tab src 0 _ htabsrc (by rw [h0] at hrowsrc; exact hrowsrc)]
        have := hc (mv pat)
        omega
      · rw [getCell_setCell_col_ne s.tab src moveind _ 0 (fun h => h0 h.symm)]
        exact hsm
    have htab1marker : ∀ r, getCell s.tab r 0 ≠ INF →
        getCell (setCell s.tab src moveind (coordf (mv pat))) r 0 ≠ INF := by
      intro r hr
      by_cases hrs : r = src
      · rw [hrs]
        exact htab1src0
      · rw [getCell_setCell_row_ne _ _ _ _ _ _ hrs]
        exact hr
    have htab1marker_rev : ∀ r, getCell (setCell s.tab src moveind (coordf (mv pat))) r 0 ≠ INF →
        getCell s.tab r 0 ≠ INF := by
      intro r hr
      by_cases hrs : r = src
      · rw [hrs] at hr ⊢
        exact hsm
      · rw [getCell_setCell_row_ne _ _ _ _ _ _ hrs] at hr
        exact hr
    by_cases hfresh : getCell (setCell s.tab src moveind (coordf (mv pat)))
        (coordf (mv pat)) 0 = INF
    · -- fresh destination: enqueue
      have hdstsrc : coordf (mv pat) ≠ src := by
        intro h
        nth_rewrite 2 [h] at hfresh
        exact htab1src0 hfresh
      have hdstunmarked : getCell s.tab (coordf (mv pat)) 0 = INF := by
        rw [getCell_setCell_row_ne _ _ _ _ _ _ hdstsrc] at hfresh
        exact hfresh
      rw [hfill, if_pos hfresh]
      set tab2 := setCell (setCell (setCell s.tab src moveind (coordf (mv pat)))
          (coordf (mv pat)) 0 0) src moveind (coordf (mv pat)) with htab2
      have htab2len : tab2.length = numCoords := by
        rw [htab2, length_setCell, length_setCell, length_setCell]
        exact htl
      have htab2row : ∀ r, r < numCoords → (tab2.getD r []).length = rowLen := by
        intro r hr
        rw [htab2, rowLength_setCell, rowLength_setCell, rowLength_setCell]
        exact hrl r hr
      have htab2dst0 : getCell tab2 (coordf (mv pat)) 0 = 0 := by
        rw [htab2, getCell_setCell_row_ne _ _ _ _ _ _ hdstsrc,
          getCell_setCell_same _ _ _ _ (by rw [length_setCell, htl]; exact hdst)
            (by rw [rowLength_setCell, hrl _ hdst]; exact hrow0)]
      have htab2srcmv : getCell tab2 src moveind = coordf (mv pat) := by
        rw [htab2, getCell_setCell_same _ _ _ _
          (by rw [length_setCell, length_setCell, htl]; exact hsrc)
          (by rw [rowLength_setCell, rowLength_setCell, hrl _ hsrc]; exact hmi)]
      have htab2src0 : getCell tab2 src 0 ≠ INF := by
        by_cases h0 : moveind = 0
        · rw [← h0, htab2srcmv]
          have := hc (mv pat)
          omega
        · rw [htab2, getCell_setCell_col_ne _ _ _ _ 0 (fun h => h0 h.symm),
            getCell_setCell_row_ne _ _ _ _ _ _ (fun h => hdstsrc h.symm)]
          exact htab1src0
      have htab2other : ∀ r c, r ≠ src → r ≠ coordf (mv pat) →
          getCell tab2 r c = getCell s.tab r c := by
        intro r c hrs hrd
        rw [htab2, getCell_setCell_row_ne _ _ _ _ _ _ hrs,
          getCell_setCell_row_ne _ _ _ _ _ _ hrd,
          getCell_setCell_row_ne _ _ _ _ _ _ hrs]
      have htab2srclow : ∀ c, c ≠ moveind → getCell tab2 src c = getCell s.tab src c := by
        intro c hcm
        rw [htab2, getCell_setCell_col_ne _ _ _ _ _ hcm,
          getCell_setCell_row_ne _ _ _ _ _ _ (fun h => hdstsrc h.symm),
          getCell_setCell_col_ne _ _ _ _ _ hcm]
      have htab2marker : ∀ r, r < numCoords → (getCell tab2 r 0 ≠ INF ↔
          getCell s.tab r 0 ≠ INF ∨ r = coordf (mv pat)) := by
        intro r hr
        constructor
        · intro hm2
          by_cases hrd : r = coordf (mv pat)
          · exact Or.inr hrd
          · by_cases hrs : r = src
            · rw [hrs]
              exact Or.inl hsm
            · rw [htab2other r 0 hrs hrd] at hm2
              exact Or.inl hm2
        · intro hm2
          rcases hm2 with hm2 | hm2
          · by_cases hrd : r = coordf (mv pat)
            · rw [hrd, htab2dst0]
              unfold INF
              omega
            · by_cases hrs : r = src
              · rw [hrs]
                exact htab2src0
              · rw [htab2other r 0 hrs hrd]
                exact hm2
          · rw [hm2, htab2dst0]
            unfold INF
            omega
      have hstep := ih (moveind + 1)
        { tab := tab2, q := s.q ++ [mv pat], qget := s.qget, qput := s.qput + 1 }
        htab2len htab2row (by simp only [List.length_cons] at hbound; omega) htab2src0
      rcases hstep with ⟨newpats2, hout⟩
      refine ⟨mv pat :: newpats2, ?_, ?_, ?_, ?_, ?_, ?_, ?_, ?_, ?_, ?_, ?_, ?_, ?_⟩
      · exact hout.tab_len
      · intro r
        rw [hout.row_len r]
        show (tab2.getD r []).length = _
        rw [htab2, rowLength_setCell, rowLength_setCell, rowLength_setCell]
      · rw [hout.q_eq]
        simp
      · exact hout.qget_eq
      · rw [hout.qput_eq]
        simp only [List.length_cons]
        omega
      · intro p' hp'
        rcases List.mem_cons.mp hp' with hp' | hp'
        · exact ⟨mv, List.mem_cons_self mv rest, hp'⟩
        · rcases hout.origin p' hp' with ⟨mv2, hmv2, he⟩
          exact ⟨mv2, List.mem_cons_of_mem mv hmv2, he⟩
      · intro p' hp'
        rcases List.mem_cons.mp hp' with hp' | hp'
        · rw [hp']
          exact hdstunmarked
        · have hfr := hout.fresh p' hp'
          have hnd : coordf p' ≠ coordf (mv pat) := by
            intro h
            rw [show getCell tab2 (coordf p') 0 = 0 from h ▸ htab2dst0] at hfr
            unfold INF at hfr
            omega
          have hns : coordf p' ≠ src := by
            intro h
            rw [h] at hfr
            exact htab2src0 hfr
          rw [← htab2other (coordf p') 0 hns hnd]
          exact hfr
      · rw [List.map_cons, List.nodup_cons]
        refine ⟨?_, hout.coords_nodup⟩
        intro hmem
        rcases List.mem_map.mp hmem with ⟨p', hp', he⟩
        have hfr := hout.fresh p' hp'
        rw [he] at hfr
        rw [show getCell tab2 (coordf (mv pat)) 0 = 0 from htab2dst0] at hfr
        unfold INF at hfr
        omega
      · intro r hr
        rw [hout.marker_iff r hr]
        show getCell tab2 r 0 ≠ INF ∨ _ ↔ _
        rw [htab2marker r hr]
        constructor
        · rintro ((hm | hm) | ⟨p', hp', he⟩)
          · exact Or.inl hm
          · exact Or.inr ⟨mv pat, List.mem_cons_self _ _, hm.symm⟩
          · exact Or.inr ⟨p', List.mem_cons_of_mem _ hp', he⟩
        · rintro (hm | ⟨p', hp', he⟩)
          · exact Or.inl (Or.inl hm)
          · rcases List.mem_cons.mp hp' with hp' | hp'
            · exact Or.inl (Or.inr (by rw [← he, hp']))
            · exact Or.inr ⟨p', hp', he⟩
      · intro r c hrs hrm
        have hrd : r ≠ coordf (mv pat) := by
          intro h
          rw [h] at hrm
          exact hrm hdstunmarked
        rw [hout.frame r c hrs (by
          show getCell tab2 r 0 ≠ INF
          rw [htab2other r 0 hrs hrd]
          exact hrm)]
        exact htab2other r c hrs hrd
      · intro c hcm
        rw [hout.src_low c (by omega)]
        exact htab2srclow c (by omega)
      · intro j hj
        by_cases hj0 : j = 0
        · subst hj0
          simpa using (hout.src_low moveind (by omega)).trans htab2srcmv
        · obtain ⟨j2, rfl⟩ : ∃ j2, j = j2 + 1 := ⟨j - 1, by omega⟩
          have h1 := hout.src_cells j2 (by simp only [List.length_cons] at hj; omega)
          have h2 : moveind + (j2 + 1) = moveind + 1 + j2 := by omega
          rw [h2]
          simpa using h1
      · intro j hj
        rcases j with _ | j'
        · show getCell (fillMovesLoop coordf src pat rest (moveind + 1) _).tab
              (coordf (mv pat)) 0 ≠ INF
          rw [hout.marker_iff (coordf (mv pat)) hdst]
          refine Or.inl ?_
          show getCell tab2 (coordf (mv pat)) 0 ≠ INF
          rw [htab2dst0]
          unfold INF
          omega
        · exact hout.dst_marked j' (by simpa using hj)
    · -- destination already marked
      have hdstmarked : getCell s.tab (coordf (mv pat)) 0 ≠ INF := by
        by_cases hds : coordf (mv pat) = src
        · rw [hds]
          exact hsm
        · rw [getCell_setCell_row_ne _ _ _ _ _ _ hds] at hfresh
          exact hfresh
      rw [hfill, if_neg hfresh]
      rw [setCell_setCell_same]
      set tab1 := setCell s.tab src moveind (coordf (mv pat)) with htab1
      have htab1len : tab1.length = numCoords := by
        rw [htab1, length_setCell]
        exact htl
      have htab1row : ∀ r, r < numCoords → (tab1.getD r []).length = rowLen := by
        intro r hr
        rw [htab1, rowLength_setCell]
        exact hrl r hr
      have htab1srcmv : getCell tab1 src moveind = coordf (mv pat) := by
        rw [htab1, getCell_setCell_same _ _ _ _ htabsrc hrowsrc]
      have htab1other : ∀ r c, r ≠ src → getCell tab1 r c = getCell s.tab r c := by
        intro r c hrs
        rw [htab1, getCell_setCell_row_ne _ _ _ _ _ _ hrs]
      have htab1srclow : ∀ c, c ≠ moveind → getCell tab1 src c = getCell s.tab src c := by
        intro c hcm
        rw [htab1, getCell_setCell_col_ne _ _ _ _ _ hcm]
      have htab1marker_iff : ∀ r, getCell tab1 r 0 ≠ INF ↔ getCell s.tab r 0 ≠ INF := by
        intro r
        exact ⟨htab1marker_rev r, htab1marker r⟩
      have hstep := ih (moveind + 1)
        { tab := tab1, q := s.q, qget := s.qget, qput := s.qput }
        htab1len htab1row (by simp only [List.length_cons] at hbound; omega) htab1src0
      rcases hstep with ⟨newpats2, hout⟩
      refine ⟨newpats2, ?_, ?_, ?_, ?_, ?_, ?_, ?_, ?_, ?_, ?_, ?_, ?_, ?_⟩
      · exact hout.tab_len
      · intro r
        rw [hout.row_len r]
        show (tab1.getD r []).length = _
        rw [htab1, rowLength_setCell]
      · exact hout.q_eq
      · exact hout.qget_eq
      · exact hout.qput_eq
      · intro p' hp'
        rcases hout.origin p' hp' with ⟨mv2, hmv2, he⟩
        exact ⟨mv2, List.mem_cons_of_mem mv hmv2, he⟩
      · intro p' hp'
        have hfr := hout.fresh p' hp'
        have hns : coordf p' ≠ src := by
          intro h
          rw [h] at hfr
          exact htab1src0 hfr
        rw [← htab1other (coordf p') 0 hns]
        exact hfr
      · exact hout.coords_nodup
      · intro r hr
        rw [hout.marker_iff r hr]
        show getCell tab1 r 0 ≠ INF ∨ _ ↔ _
        rw [htab1marker_iff r]
      · intro r c hrs hrm
        rw [hout.frame r c hrs (by
          show getCell tab1 r 0 ≠ INF
          rw [htab1other r 0 hrs]
          exact hrm)]
        exact htab1other r c hrs
      · intro c hcm
        rw [hout.src_low c (by omega)]
        exact htab1srclow c (by omega)
      · intro j hj
        by_cases hj0 : j = 0
        · subst hj0
          simpa using (hout.src_low moveind (by omega)).trans htab1srcmv
        · obtain ⟨j2, rfl⟩ : ∃ j2, j = j2 + 1 := ⟨j - 1, by omega⟩
          have h1 := hout.src_cells j2 (by simp only [List.length_cons] at hj; omega)
          have h2 : moveind + (j2 + 1) = moveind + 1 + j2 := by omega
          rw [h2]
          simpa using h1
      · intro j hj
        rcases j with _ | j'
        · show getCell (fillMovesLoop coordf src pat rest (moveind + 1) _).tab
              (coordf (mv pat)) 0 ≠ INF
          rw [hout.marker_iff (coordf (mv pat)) hdst]
          refine Or.inl ?_
          show getCell tab1 (coordf (mv pat)) 0 ≠ INF
          rw [htab1marker_iff]
          exact hdstmarked
        · exact hout.dst_marked j' (by simpa using hj)

theorem getD_eq_getElem {α : Type} (l : List α) (i : ℕ) (d : α) (h : i < l.length) :
    l.getD i d = l[i] := by
  rw [List.getD_eq_getElem?_getD, List.getElem?_eq_getElem h]
  rfl

theorem getD_mem_of_lt {α : Type} (l : List α) (i : ℕ) (d : α) (h : i < l.length) :
    l.getD i d ∈ l := by
  rw [getD_eq_getElem l i d h]
  exact List.getElem_mem h

theorem nodup_length_le_of_lt (l : List ℕ) (n : ℕ) (hnd : l.Nodup)
    (hlt : ∀ x ∈ l, x < n) : l.length ≤ n := by
  have h1 : l.toFinset ⊆ Finset.range n := by
    intro x hx
    rw [Finset.mem_range]
    exact hlt x (List.mem_toFinset.mp hx)
  have h2 := Finset.card_le_card h1
  rw [List.toFinset_card_of_nodup hnd, Finset.card_range] at h2
  exact h2

/-- The invariant maintained by the `while qget < qput` loop of
`fillmovetable`: the table keeps its shape, `qput` tracks the queue
length, every queued pattern is reachable, queued coordinates are
pairwise distinct, a coordinate row is marked (`tab[r][0] != INF`)
exactly when some queued pattern has that coordinate — except that the
seed pattern starts out queued but unmarked — and every processed entry
(index below `qget`) has its row filled with its successor coordinates,
all of which are marked. -/
structure BfsInv {P : Type} (coordf : P → ℕ) (moves : List (P → P)) (start : P)
    (numCoords rowLen : ℕ) (s : BfsState P) : Prop where
  tab_len : s.tab.length = numCoords
  row_len : ∀ r, r < numCoords → (s.tab.getD r []).length = rowLen
  qput_eq : s.qput = s.q.length
  qget_le : s.qget ≤ s.qput
  q_reach : ∀ p ∈ s.q, ReachableFrom moves start p
  q_coords_nodup : (s.q.map coordf).Nodup
  marked_sub : ∀ r, r < numCoords → getCell s.tab r 0 ≠ INF →
      ∃ p ∈ s.q, coordf p = r
  enq_marked : ∀ i, i < s.q.length →
      getCell s.tab (coordf (s.q.getD i start)) 0 ≠ INF ∨ (i = 0 ∧ s.qget = 0)
  proc_rows : ∀ i, i < s.qget → ∀ j, j < moves.length →
      getCell s.tab (coordf (s.q.getD i start)) j =
        coordf ((moves.getD j id) (s.q.getD i start))
  succ_marked : ∀ i, i < s.qget → ∀ mv ∈ moves,
      getCell s.tab (coordf (mv (s.q.getD i start))) 0 ≠ INF

theorem bfsStep_of_done {P : Type} (coordf : P → ℕ) (moves : List (P → P))
    (start : P) (s : BfsState P) (h : ¬ s.qget < s.qput) :
    bfsStep coordf moves start s = s := by
  unfold bfsStep
  rw [if_neg h]

theorem bfsStep_of_lt {P : Type} (coordf : P → ℕ) (moves : List (P → P))
    (start : P) (s : BfsState P) (h : s.qget < s.qput) :
    bfsStep coordf moves start s =
      { tab := (fillMovesLoop coordf (coordf (s.q.getD s.qget start))
            (s.q.getD s.qget start) moves 0
            { tab := setCell s.tab (coordf (s.q.getD s.qget start)) 0 0,
              q := s.q, qget := s.qget, qput := s.qput }).tab,
        q := (fillMovesLoop coordf (coordf (s.q.getD s.qget start))
            (s.q.getD s.qget start) moves 0
            { tab := setCell s.tab (coordf (s.q.getD s.qget start)) 0 0,
              q := s.q, qget := s.qget, qput := s.qput }).q,
        qget := (fillMovesLoop coordf (coordf (s.q.getD s.qget start))
            (s.q.getD s.qget start) moves 0
            { tab := setCell s.tab (coordf (s.q.getD s.qget start)) 0 0,
              q := s.q, qget := s.qget, qput := s.qput }).qget + 1,
        qput := (fillMovesLoop coordf (coordf (s.q.getD s.qget start))
            (s.q.getD s.qget start) moves 0
            { tab := setCell s.tab (coordf (s.q.getD s.qget start)) 0 0,
              q := s.q, qget := s.qget, qput := s.qput }).qput } := by
  unfold bfsStep
  rw [if_pos h]

theorem bfsStep_inv {P : Type} (coordf : P → ℕ) (moves : List (P → P)) (start : P)
    (numCoords rowLen : ℕ) (hINF : numCoords ≤ INF) (hc : ∀ p, coordf p < numCoords)
    (hrow : moves.length ≤ rowLen) (hrow0 : 0 < rowLen) (s : BfsState P)
    (hinv : BfsInv coordf moves start numCoords rowLen s) (hlt : s.qget < s.qput) :
    BfsInv coordf moves start numCoords rowLen (bfsStep coordf moves start s) ∧
      (bfsStep coordf moves start s).qget = s.qget + 1 ∧
      ∃ ext : List P, (bfsStep coordf moves start s).q = s.q ++ ext := by
  rw [bfsStep_of_lt coordf moves start s hlt]
  have hqlen : s.qget < s.q.length := by
    have h := hinv.qput_eq
    omega
  set pat := s.q.getD s.qget start with hpatdef
  set src := coordf pat with hsrcdef
  set tab1 := setCell s.tab src 0 0 with htab1def
  have hpatmem : pat ∈ s.q := getD_mem_of_lt s.q s.qget start hqlen
  have hsrclt : src < numCoords := hc pat
  have hs1len : tab1.length = numCoords := by
    rw [htab1def, length_setCell]
    exact hinv.tab_len
  have hs1row : ∀ r, r < numCoords → (tab1.getD r []).length = rowLen := by
    intro r hr
    rw [htab1def, rowLength_setCell]
    exact hinv.row_len r hr
  have hs1src : getCell tab1 src 0 = 0 := by
    rw [htab1def]
    apply getCell_setCell_same
    · rw [hinv.tab_len]
      exact hsrclt
    · rw [hinv.row_len _ hsrclt]
      exact hrow0
  have hINF0 : (0 : ℕ) ≠ INF := by
    unfold INF
    omega
  have hs1srcm : getCell tab1 src 0 ≠ INF := by
    rw [hs1src]
    exact hINF0
  have hs1other : ∀ r c, r ≠ src → getCell tab1 r c = getCell s.tab r c := by
    intro r c hne
    rw [htab1def]
    exact getCell_setCell_row_ne _ _ _ _ _ _ hne
  have hs1mono : ∀ r, getCell s.tab r 0 ≠ INF → getCell tab1 r 0 ≠ INF := by
    intro r hr
    by_cases hrs : r = src
    · rw [hrs]
      exact hs1srcm
    · rw [hs1other r 0 hrs]
      exact hr
  obtain ⟨newpats, hout⟩ := fillMovesLoop_spec coordf numCoords rowLen hINF hc
    src hsrclt pat hrow0 moves 0
    { tab := tab1, q := s.q, qget := s.qget, qput := s.qput }
    hs1len hs1row (by omega) hs1srcm
  set s2 := fillMovesLoop coordf src pat moves 0
    { tab := tab1, q := s.q, qget := s.qget, qput := s.qput } with hs2def
  have hs1tab : ({ tab := tab1, q := s.q, qget := s.qget, qput := s.qput } :
      BfsState P).tab = tab1 := rfl
  have hq2 : s2.q = s.q ++ newpats := hout.q_eq
  have hg2 : s2.qget = s.qget := hout.qget_eq
  have hp2 : s2.qput = s.qput + newpats.length := hout.qput_eq
  have hs2mono : ∀ r, r < numCoords → getCell tab1 r 0 ≠ INF →
      getCell s2.tab r 0 ≠ INF :=
    fun r hr h => (hout.marker_iff r hr).mpr (Or.inl h)
  refine ⟨⟨?_, ?_, ?_, ?_, ?_, ?_, ?_, ?_, ?_, ?_⟩, ?_, ⟨newpats, ?_⟩⟩
  · exact hout.tab_len
  · intro r hr
    show (s2.tab.getD r []).length = rowLen
    rw [hout.row_len r, hs1tab]
    exact hs1row r hr
  · show s2.qput = s2.q.length
    rw [hp2, hq2, hinv.qput_eq, List.length_append]
  · show s2.qget + 1 ≤ s2.qput
    rw [hg2, hp2]
    omega
  · intro p hp
    have hpm : p ∈ s.q ++ newpats := by
      rw [← hq2]
      exact hp
    rcases List.mem_append.mp hpm with hmem | hmem
    · exact hinv.q_reach p hmem
    · obtain ⟨mv, hmv, he⟩ := hout.origin p hmem
      rw [he]
      exact ReachableFrom.step pat mv (hinv.q_reach pat hpatmem) hmv
  · show (s2.q.map coordf).Nodup
    rw [hq2, List.map_append, List.nodup_append]
    refine ⟨hinv.q_coords_nodup, hout.coords_nodup, ?_⟩
    intro x hx1 hx2
    obtain ⟨p, hpmem, hpx⟩ := List.mem_map.mp hx1
    obtain ⟨p2, hp2mem, hp2x⟩ := List.mem_map.mp hx2
    obtain ⟨i, hi, hie⟩ := List.getElem_of_mem hpmem
    have hfr2 : getCell tab1 (coordf p2) 0 = INF := hout.fresh p2 hp2mem
    rcases hinv.enq_marked i hi with hm | ⟨hi0, hg0⟩
    · have he1 : s.q.getD i start = p := by
        rw [getD_eq_getElem s.q i start hi]
        exact hie
      rw [he1] at hm
      have hm2 : getCell s.tab (coordf p2) 0 ≠ INF := by
        rw [hp2x, ← hpx]
        exact hm
      exact hs1mono _ hm2 hfr2
    · have he1 : s.q.getD i start = p := by
        rw [getD_eq_getElem s.q i start hi]
        exact hie
      have hpp : pat = p := by
        rw [hpatdef, hg0, ← hi0]
        exact he1
      have hfr3 : getCell tab1 src 0 = INF := by
        rw [hsrcdef, hpp, hpx, ← hp2x]
        exact hfr2
      exact hINF0 (by rw [hs1src] at hfr3; exact hfr3)
  · intro r hr hm
    have hm2 : getCell s2.tab r 0 ≠ INF := hm
    rcases (hout.marker_iff r hr).mp hm2 with hm3 | ⟨p2, hp2mem, hp2c⟩
    · by_cases hrs : r = src
      · refine ⟨pat, ?_, ?_⟩
        · show pat ∈ s2.q
          rw [hq2]
          exact List.mem_append_left _ hpatmem
        · rw [hrs, hsrcdef]
      · have hm4 : getCell s.tab r 0 ≠ INF := by
          rw [← hs1other r 0 hrs]
          rw [← hs1tab]
          exact hm3
        obtain ⟨p, hpmem, hpc⟩ := hinv.marked_sub r hr hm4
        refine ⟨p, ?_, hpc⟩
        show p ∈ s2.q
        rw [hq2]
        exact List.mem_append_left _ hpmem
    · refine ⟨p2, ?_, hp2c⟩
      show p2 ∈ s2.q
      rw [hq2]
      exact List.mem_append_right _ hp2mem
  · intro i hi
    left
    have hi2 : i < s.q.length + newpats.length := by
      have h : i < s2.q.length := hi
      rw [hq2, List.length_append] at h
      exact h
    by_cases hilt : i < s.q.length
    · have he : s2.q.getD i start = s.q.getD i start := by
        rw [hq2]
        exact List.getD_append s.q newpats start i hilt
      show getCell s2.tab (coordf (s2.q.getD i start)) 0 ≠ INF
      rw [he]
      rcases hinv.enq_marked i hilt with hm | ⟨hi0, hg0⟩
      · exact hs2mono _ (hc _) (hs1mono _ hm)
      · have he2 : s.q.getD i start = pat := by
          rw [hi0, hpatdef, hg0]
        rw [he2, ← hsrcdef]
        exact hs2mono src hsrclt hs1srcm
    · have hge : s.q.length ≤ i := by omega
      have he : s2.q.getD i start = newpats.getD (i - s.q.length) start := by
        rw [hq2]
        exact List.getD_append_right s.q newpats start i hge
      have hmem : newpats.getD (i - s.q.length) start ∈ newpats :=
        getD_mem_of_lt _ _ _ (by omega)
      obtain ⟨mv, hmv, hee⟩ := hout.origin _ hmem
      obtain ⟨j, hj, hje⟩ := List.getElem_of_mem hmv
      have hgd : moves.getD j id = mv := by
        rw [getD_eq_getElem moves j id hj]
        exact hje
      have hdm := hout.dst_marked j hj
      rw [hgd] at hdm
      show getCell s2.tab (coordf (s2.q.getD i start)) 0 ≠ INF
      rw [he, hee]
      exact hdm
  · intro i hi j hj
    have hi2 : i < s.qget + 1 := by
      have h : i < s2.qget + 1 := hi
      rw [hg2] at h
      exact h
    have hilt : i < s.q.length := by omega
    have he : s2.q.getD i start = s.q.getD i start := by
      rw [hq2]
      exact List.getD_append s.q newpats start i hilt
    show getCell s2.tab (coordf (s2.q.getD i start)) j =
      coordf ((moves.getD j id) (s2.q.getD i start))
    rw [he]
    by_cases hieq : i = s.qget
    · have he2 : s.q.getD i start = pat := by
        rw [hieq, hpatdef]
      rw [he2, ← hsrcdef]
      have hsc := hout.src_cells j hj
      rw [Nat.zero_add] at hsc
      exact hsc
    · have hile : i < s.qget := by omega
      have hrm : getCell s.tab (coordf (s.q.getD i start)) 0 ≠ INF := by
        rcases hinv.enq_marked i hilt with hm | ⟨hi0, hg0⟩
        · exact hm
        · omega
      have hrs : coordf (s.q.getD i start) ≠ src := by
        intro hh
        have hlen1 : i < (s.q.map coordf).length := by
          rw [List.length_map]
          exact hilt
        have hlen2 : s.qget < (s.q.map coordf).length := by
          rw [List.length_map]
          exact hqlen
        have h1 : (s.q.map coordf)[i] = (s.q.map coordf)[s.qget] := by
          rw [List.getElem_map, List.getElem_map,
            ← getD_eq_getElem s.q i start hilt, ← getD_eq_getElem s.q s.qget start hqlen]
          rw [hh, hsrcdef, hpatdef]
        have h2 := (List.Nodup.getElem_inj_iff hinv.q_coords_nodup).mp h1
        omega
      have h2 := hout.frame (coordf (s.q.getD i start)) j hrs (hs1mono _ hrm)
      rw [h2, hs1tab, hs1other _ j hrs]
      exact hinv.proc_rows i hile j hj
  · intro i hi mv hmv
    have hi2 : i < s.qget + 1 := by
      have h : i < s2.qget + 1 := hi
      rw [hg2] at h
      exact h
    have hilt : i < s.q.length := by omega
    have he : s2.q.getD i start = s.q.getD i start := by
      rw [hq2]
      exact List.getD_append s.q newpats start i hilt
    show getCell s2.tab (coordf (mv (s2.q.getD i start))) 0 ≠ INF
    rw [he]
    by_cases hieq : i = s.qget
    · have he2 : s.q.getD i start = pat := by
        rw [hieq, hpatdef]
      rw [he2]
      obtain ⟨j, hj, hje⟩ := List.getElem_of_mem hmv
      have hgd : moves.getD j id = mv := by
        rw [getD_eq_getElem moves j id hj]
        exact hje
      have hdm := hout.dst_marked j hj
      rw [hgd] at hdm
      exact hdm
    · have hile : i < s.qget := by omega
      exact hs2mono _ (hc _) (hs1mono _ (hinv.succ_marked i hile mv hmv))
  · show s2.qget + 1 = s.qget + 1
    rw [hg2]
  · show s2.q = s.q ++ newpats
    exact hq2

theorem bfsIter_of_done {P : Type} (coordf : P → ℕ) (moves : List (P → P)) (start : P) :
    ∀ (n : ℕ) (s : BfsState P), ¬ s.qget < s.qput →
      bfsIter coordf moves start n s = s := by
  intro n
  induction n with
  | zero =>
    intro s h
    rfl
  | succ n ih =>
    intro s h
    show bfsIter coordf moves start n (bfsStep coordf moves start s) = s
    rw [bfsStep_of_done coordf moves start s h]
    exact ih s h

theorem bfsIter_inv {P : Type} (coordf : P → ℕ) (moves : List (P → P)) (start : P)
    (numCoords rowLen : ℕ) (hINF : numCoords ≤ INF) (hc : ∀ p, coordf p < numCoords)
    (hrow : moves.length ≤ rowLen) (hrow0 : 0 < rowLen) :
    ∀ (n : ℕ) (s : BfsState P), BfsInv coordf moves start numCoords rowLen s →
      BfsInv coordf moves start numCoords rowLen (bfsIter coordf moves start n s) ∧
      ((bfsIter coordf moves start n s).qget = (bfsIter coordf moves start n s).qput ∨
        (bfsIter coordf moves start n s).qget = s.qget + n) ∧
      ∃ ext : List P, (bfsIter coordf moves start n s).q = s.q ++ ext := by
  intro n
  induction n with
  | zero =>
    intro s h
    refine ⟨h, Or.inr rfl, ⟨[], ?_⟩⟩
    show s.q = s.q ++ []
    rw [List.append_nil]
  | succ n ih =>
    intro s h
    by_cases hlt : s.qget < s.qput
    · obtain ⟨h1, h2, ext1, h3⟩ := bfsStep_inv coordf moves start numCoords rowLen
        hINF hc hrow hrow0 s h hlt
      obtain ⟨h4, h5, ext2, h6⟩ := ih (bfsStep coordf moves start s) h1
      have hstep : bfsIter coordf moves start (n + 1) s =
          bfsIter coordf moves start n (bfsStep coordf moves start s) := rfl
      rw [hstep]
      refine ⟨h4, ?_, ⟨ext1 ++ ext2, ?_⟩⟩
      · rcases h5 with h5 | h5
        · exact Or.inl h5
        · right
          omega
      · rw [h6, h3, List.append_assoc]
    · have heq : bfsIter coordf moves start (n + 1) s = s :=
        bfsIter_of_done coordf moves start (n + 1) s hlt
      rw [heq]
      have hd : s.qget = s.qput := by
        have h1 := h.qget_le
        omega
      refine ⟨h, Or.inl hd, ⟨[], ?_⟩⟩
      rw [List.append_nil]

theorem bfsInv_init {P : Type} (coordf : P → ℕ) (moves : List (P → P)) (start : P)
    (numCoords rowLen : ℕ) (hrow0 : 0 < rowLen) :
    BfsInv coordf moves start numCoords rowLen
      { tab := (List.replicate numCoords (List.replicate rowLen 0)).map
          (fun row => row.set 0 INF),
        q := [start], qget := 0, qput := 1 } := by
  have htab0 : ∀ r, r < numCoords →
      ((List.replicate numCoords (List.replicate rowLen 0)).map
        (fun row => row.set 0 INF)).getD r [] = (List.replicate rowLen 0).set 0 INF := by
    intro r hr
    rw [List.getD_eq_getElem?_getD, List.getElem?_map, List.getElem?_replicate_of_lt hr]
    rfl
  have hcell : ∀ r, r < numCoords →
      getCell ((List.replicate numCoords (List.replicate rowLen 0)).map
        (fun row => row.set 0 INF)) r 0 = INF := by
    intro r hr
    unfold getCell
    rw [htab0 r hr, List.getD_eq_getElem?_getD, List.getElem?_set_self
      (by rw [List.length_replicate]; exact hrow0)]
    rfl
  refine ⟨?_, ?_, ?_, ?_, ?_, ?_, ?_, ?_, ?_, ?_⟩
  · show ((List.replicate numCoords (List.replicate rowLen 0)).map
      (fun row => row.set 0 INF)).length = numCoords
    rw [List.length_map, List.length_replicate]
  · intro r hr
    show (((List.replicate numCoords (List.replicate rowLen 0)).map
      (fun row => row.set 0 INF)).getD r []).length = rowLen
    rw [htab0 r hr, List.length_set, List.length_replicate]
  · rfl
  · show 0 ≤ 1
    omega
  · intro p hp
    have hp2 : p ∈ [start] := hp
    rw [List.mem_singleton.mp hp2]
    exact ReachableFrom.refl
  · show (([start] : List P).map coordf).Nodup
    simp
  · intro r hr hm
    exact absurd (hcell r hr) hm
  · intro i hi
    right
    have hi2 : i < 1 := hi
    exact ⟨by omega, rfl⟩
  · intro i hi j hj
    exact absurd (show i < 0 from hi) (Nat.not_lt_zero i)
  · intro i hi mv hmv
    exact absurd (show i < 0 from hi) (Nat.not_lt_zero i)

theorem bfsInv_q_le {P : Type} (coordf : P → ℕ) (moves : List (P → P)) (start : P)
    (numCoords rowLen : ℕ) (hc : ∀ p, coordf p < numCoords) (s : BfsState P)
    (hinv : BfsInv coordf moves start numCoords rowLen s) : s.q.length ≤ numCoords := by
  have h1 : (s.q.map coordf).length ≤ numCoords := by
    apply nodup_length_le_of_lt _ _ hinv.q_coords_nodup
    intro x hx
    obtain ⟨p, hp, he⟩ := List.mem_map.mp hx
    rw [← he]
    exact hc p
  rw [List.length_map] at h1
  exact h1

/-- C3: after `fillmovetable` completes, the assertions `qget == tab.len()`
and `qput == tab.len()` hold; every coordinate value below the table size
is visited by the BFS (it is the coordinate of some queued witness
pattern); and for every queued witness pattern and every move index `j`,
the table entry `tab[coord][j]` equals the coordinate of the pattern
obtained by applying move `j` to that witness.  The compatibility of the
coordinate function with the moves and the reachability of every
coordinate value are modelled from the spec, as the puzzle data is
outside `src/`. -/
theorem fillmovetable_correct {P : Type} (coordf : P → ℕ) (moves : List (P → P))
    (start : P) (numCoords rowLen : ℕ)
    (hINF : numCoords ≤ INF) (hc : ∀ p, coordf p < numCoords)
    (hrowlen : moves.length ≤ rowLen) (hrow0 : 0 < rowLen)
    (hcong : ∀ mv ∈ moves, ∀ p p2, coordf p = coordf p2 → coordf (mv p) = coordf (mv p2))
    (hreach : ∀ r, r < numCoords → ∃ p, ReachableFrom moves start p ∧ coordf p = r) :
    (fillmovetable coordf moves start numCoords rowLen).qget =
        (fillmovetable coordf moves start numCoords rowLen).tab.length ∧
      (fillmovetable coordf moves start numCoords rowLen).qput =
        (fillmovetable coordf moves start numCoords rowLen).tab.length ∧
      (∀ r, r < numCoords →
        ∃ i, i < (fillmovetable coordf moves start numCoords rowLen).q.length ∧
          coordf ((fillmovetable coordf moves start numCoords rowLen).q.getD i start) = r) ∧
      (∀ i, i < (fillmovetable coordf moves start numCoords rowLen).q.length →
        ∀ j, j < moves.length →
          getCell (fillmovetable coordf moves start numCoords rowLen).tab
              (coordf ((fillmovetable coordf moves start numCoords rowLen).q.getD i start))
              j =
            coordf ((moves.getD j id)
              ((fillmovetable coordf moves start numCoords rowLen).q.getD i start))) := by
  have hfm : fillmovetable coordf moves start numCoords rowLen =
      bfsIter coordf moves start numCoords
        { tab := (List.replicate numCoords (List.replicate rowLen 0)).map
            (fun row => row.set 0 INF),
          q := [start], qget := 0, qput := 1 } := rfl
  rw [hfm]
  obtain ⟨hinv, hdisj, ext, hq⟩ := bfsIter_inv coordf moves start numCoords rowLen
    hINF hc hrowlen hrow0 numCoords _
    (bfsInv_init coordf moves start numCoords rowLen hrow0)
  set sf := bfsIter coordf moves start numCoords
    { tab := (List.replicate numCoords (List.replicate rowLen 0)).map
        (fun row => row.set 0 INF),
      q := [start], qget := 0, qput := 1 } with hsfdef
  have hqle : sf.q.length ≤ numCoords :=
    bfsInv_q_le coordf moves start numCoords rowLen hc sf hinv
  have hdone : sf.qget = sf.qput := by
    rcases hdisj with h | h
    · exact h
    · have h1 := hinv.qget_le
      have h2 := hinv.qput_eq
      have h3 : sf.qget = 0 + numCoords := h
      omega
  have hcover : ∀ p, ReachableFrom moves start p →
      ∃ p2 ∈ sf.q, coordf p2 = coordf p := by
    intro p hp
    induction hp with
    | refl =>
      refine ⟨start, ?_, rfl⟩
      have hq2 : sf.q = [start] ++ ext := hq
      rw [hq2]
      exact List.mem_append_left _ (List.mem_singleton.mpr rfl)
    | step p mv hp hmv ih =>
      obtain ⟨p2, hp2mem, hp2c⟩ := ih
      obtain ⟨i, hi, hie⟩ := List.getElem_of_mem hp2mem
      have hig : i < sf.qget := by
        have h1 := hinv.qput_eq
        omega
      have hsm := hinv.succ_marked i hig mv hmv
      have hgd : sf.q.getD i start = p2 := by
        rw [getD_eq_getElem sf.q i start hi]
        exact hie
      rw [hgd] at hsm
      obtain ⟨p3, hp3mem, hp3c⟩ := hinv.marked_sub _ (hc _) hsm
      refine ⟨p3, hp3mem, ?_⟩
      rw [hp3c]
      exact hcong mv hmv p2 p hp2c
  have hvisit : ∀ r, r < numCoords →
      ∃ i, i < sf.q.length ∧ coordf (sf.q.getD i start) = r := by
    intro r hr
    obtain ⟨p, hp, hpc⟩ := hreach r hr
    obtain ⟨p2, hp2mem, hp2c⟩ := hcover p hp
    obtain ⟨i, hi, hie⟩ := List.getElem_of_mem hp2mem
    refine ⟨i, hi, ?_⟩
    rw [getD_eq_getElem sf.q i start hi, hie, hp2c, hpc]
  have hlen : sf.q.length = numCoords := by
    have hge : numCoords ≤ sf.q.length := by
      have hsub : Finset.range numCoords ⊆ (sf.q.map coordf).toFinset := by
        intro r hrm
        rw [Finset.mem_range] at hrm
        rw [List.mem_toFinset]
        obtain ⟨i, hi, hie⟩ := hvisit r hrm
        rw [← hie]
        exact List.mem_map_of_mem coordf (getD_mem_of_lt sf.q i start hi)
      have h2 := Finset.card_le_card hsub
      rw [Finset.card_range, List.toFinset_card_of_nodup hinv.q_coords_nodup,
        List.length_map] at h2
      exact h2
    omega
  have htlen : sf.tab.length = numCoords := hinv.tab_len
  refine ⟨?_, ?_, hvisit, ?_⟩
  · rw [htlen]
    have h2 := hinv.qput_eq
    omega
  · rw [htlen]
    have h2 := hinv.qput_eq
    omega
  · intro i hi j hj
    have h2 := hinv.qput_eq
    exact hinv.proc_rows i (by omega) j hj

theorem fillmovetable_correct_witness :
    (2 ≤ INF ∧ 0 < 1) ∧
      ((fillmovetable (fun n : ℕ => n % 2) [fun n : ℕ => n + 1] 0 2 1).qget =
          (fillmovetable (fun n : ℕ => n % 2) [fun n : ℕ => n + 1] 0 2 1).tab.length ∧
        (fillmovetable (fun n : ℕ => n % 2) [fun n : ℕ => n + 1] 0 2 1).qput =
          (fillmovetable (fun n : ℕ => n % 2) [fun n : ℕ => n + 1] 0 2 1).tab.length) := by
  have hmain := fillmovetable_correct (fun n : ℕ => n % 2) [fun n : ℕ => n + 1] 0 2 1
    (by unfold INF; omega)
    (fun p => Nat.mod_lt p (by omega))
    (by simp)
    (by omega)
    (by
      intro mv hmv p p2 hpe
      rw [List.mem_singleton.mp hmv]
      simp only at hpe ⊢
      omega)
    (by
      intro r hr
      interval_cases r
      · exact ⟨0, ReachableFrom.refl, rfl⟩
      · exact ⟨(fun n : ℕ => n + 1) 0,
          ReachableFrom.step 0 (fun n : ℕ => n + 1) ReachableFrom.refl
            (List.mem_singleton.mpr rfl), rfl⟩)
  exact ⟨⟨by unfold INF; omega, by omega⟩, hmain.1, hmain.2.1⟩

/-! ## CoordEP (cube4x4x4.rs)

`CoordEP::coordinate_for_pattern` walks the cycles of the WINGS
permutation with a visited bit mask, accumulating `cyclen + 1` per
cycle, and returns the low bit of the total.  The wing permutation is
embedded as a function `Fin 24 → Fin 24`; the mask is a natural number
tested and set bitwise as in the source.  The inner `while` loop runs
with fuel 24, which suffices because each iteration sets a fresh bit
and the walk stops after one full cycle. -/

/-- Translated from the inner `while ((bits >> j) & 1) == 0` loop of
`CoordEP::coordinate_for_pattern`: follow the permutation from `j`,
setting the visited bit and counting `cyclen`, until a visited
position is reached. -/
def epCycleWalk (f : Fin 24 → Fin 24) : ℕ → ℕ → Fin 24 → ℕ × ℕ
  | 0, bits, _ => (bits, 0)
  | fuel + 1, bits, j =>
    if Nat.testBit bits j.val = false then
      let w := epCycleWalk f fuel (bits ||| 2 ^ j.val) (f j)
      (w.1, w.2 + 1)
    else (bits, 0)

/-- Translated from the outer `for idx in 0..24` loop of
`CoordEP::coordinate_for_pattern`; the state is the pair `(bits, r)`,
and `r += cyclen + 1` for every index whose bit is still unset. -/
def coordEPGo (f : Fin 24 → Fin 24) : List (Fin 24) → ℕ × ℕ → ℕ × ℕ
  | [], s => s
  | idx :: rest, s =>
    if Nat.testBit s.1 idx.val = false then
      coordEPGo f rest ((epCycleWalk f 24 s.1 idx).1,
        s.2 + ((epCycleWalk f 24 s.1 idx).2 + 1))
    else coordEPGo f rest s

/-- Translated from `CoordEP::coordinate_for_pattern`: scan the 24 wing
positions starting from an empty mask and return `(r & 1)`. -/
def coordEP (f : Fin 24 → Fin 24) : ℕ :=
  (coordEPGo f (List.finRange 24) (0, 0)).2 &&& 1

theorem testBit_or_two_pow (bits : ℕ) (j i : Fin 24) :
    Nat.testBit (bits ||| 2 ^ j.val) i.val = true ↔
      (Nat.testBit bits i.val = true ∨ i = j) := by
  rw [Nat.testBit_or]
  by_cases hij : i = j
  · subst hij
    rw [Nat.testBit_two_pow_self]
    simp
  · rw [Nat.testBit_two_pow_of_ne (fun h => hij (Fin.ext h.symm))]
    simp [hij]

theorem perm_pow_apply (f : Fin 24 → Fin 24) (hb : Function.Bijective f) :
    ∀ (n : ℕ) (x : Fin 24), ((Equiv.ofBijective f hb) ^ n) x = f^[n] x := by
  intro n
  induction n with
  | zero =>
    intro x
    rfl
  | succ n ih =>
    intro x
    rw [pow_succ, Equiv.Perm.mul_apply, Function.iterate_succ_apply]
    exact ih (f x)

theorem mem_periodicPts_of_bijective (f : Fin 24 → Fin 24)
    (hb : Function.Bijective f) (x : Fin 24) : x ∈ Function.periodicPts f := by
  refine ⟨orderOf (Equiv.ofBijective f hb), orderOf_pos _, ?_⟩
  show f^[orderOf (Equiv.ofBijective f hb)] x = x
  rw [← perm_pow_apply f hb, pow_orderOf_eq_one]
  rfl

theorem epCycleWalk_stop (f : Fin 24 → Fin 24) (fuel bits : ℕ) (j : Fin 24)
    (h : Nat.testBit bits j.val = true) :
    epCycleWalk f fuel bits j = (bits, 0) := by
  cases fuel with
  | zero => rfl
  | succ s =>
    unfold epCycleWalk
    rw [h]
    simp

theorem epCycleWalk_enter (f : Fin 24 → Fin 24) (s bits : ℕ) (j : Fin 24)
    (h : Nat.testBit bits j.val = false) :
    epCycleWalk f (s + 1) bits j =
      ((epCycleWalk f s (bits ||| 2 ^ j.val) (f j)).1,
        (epCycleWalk f s (bits ||| 2 ^ j.val) (f j)).2 + 1) := by
  show (if Nat.testBit bits j.val = false then
      ((epCycleWalk f s (bits ||| 2 ^ j.val) (f j)).1,
        (epCycleWalk f s (bits ||| 2 ^ j.val) (f j)).2 + 1)
    else (bits, 0)) =
    ((epCycleWalk f s (bits ||| 2 ^ j.val) (f j)).1,
      (epCycleWalk f s (bits ||| 2 ^ j.val) (f j)).2 + 1)
  rw [if_pos h]

theorem epCycleWalk_spec (f : Fin 24 → Fin 24) (j : Fin 24)
    (hkpos : 0 < Function.minimalPeriod f j)
    (hper : f^[Function.minimalPeriod f j] j = j)
    (hinj : Set.InjOn (fun n => f^[n] j) (Set.Iio (Function.minimalPeriod f j))) :
    ∀ (t m fuel bits0 bits : ℕ),
      m + t = Function.minimalPeriod f j →
      t ≤ fuel →
      (∀ n : ℕ, Nat.testBit bits0 (f^[n] j).val = false) →
      (∀ i : Fin 24, Nat.testBit bits i.val = true ↔
        (Nat.testBit bits0 i.val = true ∨ ∃ n, n < m ∧ f^[n] j = i)) →
      ∃ bits2,
        epCycleWalk f fuel bits (f^[m] j) = (bits2, t) ∧
        ∀ i : Fin 24, Nat.testBit bits2 i.val = true ↔
          (Nat.testBit bits0 i.val = true ∨
            ∃ n, n < Function.minimalPeriod f j ∧ f^[n] j = i) := by
  intro t
  induction t with
  | zero =>
    intro m fuel bits0 bits hmt hfuel hd hbits
    have hm : m = Function.minimalPeriod f j := by omega
    have hset : Nat.testBit bits (f^[m] j).val = true := by
      rw [hm, hper, hbits j]
      right
      exact ⟨0, by omega, rfl⟩
    refine ⟨bits, epCycleWalk_stop f fuel bits (f^[m] j) hset, ?_⟩
    rw [← hm]
    exact hbits
  | succ t ih =>
    intro m fuel bits0 bits hmt hfuel hd hbits
    have hmlt : m < Function.minimalPeriod f j := by omega
    have hunset : Nat.testBit bits (f^[m] j).val = false := by
      cases hcase : Nat.testBit bits (f^[m] j).val with
      | false => rfl
      | true =>
        exfalso
        rcases (hbits (f^[m] j)).mp hcase with h0 | ⟨n, hn, he⟩
        · rw [hd m] at h0
          exact Bool.false_ne_true h0
        · have hnm : n = m := hinj (Set.mem_Iio.mpr (by omega)) (Set.mem_Iio.mpr hmlt) he
          omega
    cases fuel with
    | zero => omega
    | succ s =>
      have henter := epCycleWalk_enter f s bits (f^[m] j) hunset
      have hnext : f (f^[m] j) = f^[m + 1] j := (Function.iterate_succ_apply' f m j).symm
      have hbits2 : ∀ i : Fin 24,
          Nat.testBit (bits ||| 2 ^ (f^[m] j).val) i.val = true ↔
          (Nat.testBit bits0 i.val = true ∨ ∃ n, n < m + 1 ∧ f^[n] j = i) := by
        intro i
        rw [testBit_or_two_pow, hbits i]
        constructor
        · rintro ((h0 | ⟨n, hn, he⟩) | hij)
          · exact Or.inl h0
          · exact Or.inr ⟨n, by omega, he⟩
          · exact Or.inr ⟨m, by omega, by rw [hij]⟩
        · rintro (h0 | ⟨n, hn, he⟩)
          · exact Or.inl (Or.inl h0)
          · by_cases hn2 : n < m
            · exact Or.inl (Or.inr ⟨n, hn2, he⟩)
            · have hnm : n = m := by omega
              right
              rw [← he, hnm]
      obtain ⟨bits2, heq, hprops⟩ := ih (m + 1) s bits0 (bits ||| 2 ^ (f^[m] j).val)
        (by omega) (by omega) hd hbits2
      refine ⟨bits2, ?_, hprops⟩
      rw [henter, hnext, heq]

/-- The permutation that acts as `f` on the (`f`-invariant) set `S` and
as the identity elsewhere; the product over the cycles handled so far. -/
noncomputable def permOn (f : Fin 24 → Fin 24) (hb : Function.Bijective f)
    (S : Finset (Fin 24)) (hS : ∀ x : Fin 24, x ∈ S ↔ f x ∈ S) :
    Equiv.Perm (Fin 24) :=
  Equiv.Perm.ofSubtype (Equiv.Perm.subtypePerm (Equiv.ofBijective f hb) hS)

theorem permOn_apply_of_mem (f : Fin 24 → Fin 24) (hb : Function.Bijective f)
    (S : Finset (Fin 24)) (hS : ∀ x : Fin 24, x ∈ S ↔ f x ∈ S) (x : Fin 24)
    (hx : x ∈ S) : permOn f hb S hS x = f x := by
  unfold permOn
  rw [Equiv.Perm.ofSubtype_apply_of_mem _ hx]
  rfl

theorem permOn_apply_of_not_mem (f : Fin 24 → Fin 24) (hb : Function.Bijective f)
    (S : Finset (Fin 24)) (hS : ∀ x : Fin 24, x ∈ S ↔ f x ∈ S) (x : Fin 24)
    (hx : x ∉ S) : permOn f hb S hS x = x := by
  unfold permOn
  exact Equiv.Perm.ofSubtype_apply_of_not_mem _ hx

theorem permOn_congr (f : Fin 24 → Fin 24) (hb : Function.Bijective f)
    (S1 S2 : Finset (Fin 24)) (h : S1 = S2)
    (h1 : ∀ x : Fin 24, x ∈ S1 ↔ f x ∈ S1) (h2 : ∀ x : Fin 24, x ∈ S2 ↔ f x ∈ S2) :
    permOn f hb S1 h1 = permOn f hb S2 h2 := by
  subst h
  rfl

theorem permOn_empty (f : Fin 24 → Fin 24) (hb : Function.Bijective f)
    (hS : ∀ x : Fin 24, x ∈ (∅ : Finset (Fin 24)) ↔ f x ∈ (∅ : Finset (Fin 24))) :
    permOn f hb ∅ hS = 1 := by
  apply Equiv.ext
  intro x
  rw [permOn_apply_of_not_mem f hb ∅ hS x (Finset.not_mem_empty x)]
  rfl

theorem permOn_univ (f : Fin 24 → Fin 24) (hb : Function.Bijective f)
    (hS : ∀ x : Fin 24, x ∈ (Finset.univ : Finset (Fin 24)) ↔
      f x ∈ (Finset.univ : Finset (Fin 24))) :
    permOn f hb Finset.univ hS = Equiv.ofBijective f hb := by
  apply Equiv.ext
  intro x
  rw [permOn_apply_of_mem f hb Finset.univ hS x (Finset.mem_univ x)]
  rfl

theorem permOn_mul (f : Fin 24 → Fin 24) (hb : Function.Bijective f)
    (S T : Finset (Fin 24))
    (hS : ∀ x : Fin 24, x ∈ S ↔ f x ∈ S) (hT : ∀ x : Fin 24, x ∈ T ↔ f x ∈ T)
    (hU : ∀ x : Fin 24, x ∈ S ∪ T ↔ f x ∈ S ∪ T)
    (hdisj : ∀ x, x ∈ T → x ∉ S) :
    permOn f hb (S ∪ T) hU = permOn f hb S hS * permOn f hb T hT := by
  apply Equiv.ext
  intro x
  rw [Equiv.Perm.mul_apply]
  by_cases hxT : x ∈ T
  · rw [permOn_apply_of_mem f hb T hT x hxT,
      permOn_apply_of_mem f hb (S ∪ T) hU x (Finset.mem_union_right S hxT),
      permOn_apply_of_not_mem f hb S hS (f x) (hdisj (f x) ((hT x).mp hxT))]
  · by_cases hxS : x ∈ S
    · rw [permOn_apply_of_not_mem f hb T hT x hxT,
        permOn_apply_of_mem f hb S hS x hxS,
        permOn_apply_of_mem f hb (S ∪ T) hU x (Finset.mem_union_left T hxS)]
    · rw [permOn_apply_of_not_mem f hb T hT x hxT,
        permOn_apply_of_not_mem f hb S hS x hxS,
        permOn_apply_of_not_mem f hb (S ∪ T) hU x
          (by rw [Finset.mem_union]; rintro (h | h) <;> [exact hxS h; exact hxT h])]

theorem orbit_mem_iff (f : Fin 24 → Fin 24) (j : Fin 24) (x : Fin 24) :
    x ∈ Finset.image (fun n => f^[n] j)
        (Finset.range (Function.minimalPeriod f j)) ↔
      ∃ n, n < Function.minimalPeriod f j ∧ f^[n] j = x := by
  rw [Finset.mem_image]
  constructor
  · rintro ⟨n, hn, he⟩
    exact ⟨n, Finset.mem_range.mp hn, he⟩
  · rintro ⟨n, hn, he⟩
    exact ⟨n, Finset.mem_range.mpr hn, he⟩

theorem orbit_closed (f : Fin 24 → Fin 24) (hb : Function.Bijective f) (j : Fin 24)
    (hkpos : 0 < Function.minimalPeriod f j)
    (hper : f^[Function.minimalPeriod f j] j = j) :
    ∀ x : Fin 24,
      x ∈ Finset.image (fun n => f^[n] j)
          (Finset.range (Function.minimalPeriod f j)) ↔
        f x ∈ Finset.image (fun n => f^[n] j)
          (Finset.range (Function.minimalPeriod f j)) := by
  intro x
  rw [orbit_mem_iff, orbit_mem_iff]
  constructor
  · rintro ⟨n, hn, he⟩
    by_cases hn1 : n + 1 < Function.minimalPeriod f j
    · refine ⟨n + 1, hn1, ?_⟩
      rw [Function.iterate_succ_apply', he]
    · refine ⟨0, hkpos, ?_⟩
      have hn2 : n + 1 = Function.minimalPeriod f j := by omega
      show j = f x
      rw [← he]
      have h1 := (Function.iterate_succ_apply' f n j).symm
      rw [Nat.succ_eq_add_one] at h1
      rw [h1, hn2, hper]
  · rintro ⟨n, hn, he⟩
    by_cases hn0 : n = 0
    · refine ⟨Function.minimalPeriod f j - 1, by omega, ?_⟩
      apply hb.1
      have h1 := (Function.iterate_succ_apply' f (Function.minimalPeriod f j - 1) j).symm
      rw [Nat.succ_eq_add_one] at h1
      have hs : Function.minimalPeriod f j - 1 + 1 = Function.minimalPeriod f j := by
        omega
      show f (f^[Function.minimalPeriod f j - 1] j) = f x
      rw [h1, hs, hper, ← he, hn0]
      rfl
    · refine ⟨n - 1, by omega, ?_⟩
      apply hb.1
      have h1 := (Function.iterate_succ_apply' f (n - 1) j).symm
      rw [Nat.succ_eq_add_one] at h1
      have hs : n - 1 + 1 = n := by omega
      show f (f^[n - 1] j) = f x
      rw [h1, hs]
      exact he

theorem permOn_orbit_pow (f : Fin 24 → Fin 24) (hb : Function.Bijective f) (j : Fin 24)
    (hkpos : 0 < Function.minimalPeriod f j)
    (hT : ∀ x : Fin 24,
      x ∈ Finset.image (fun n => f^[n] j)
          (Finset.range (Function.minimalPeriod f j)) ↔
        f x ∈ Finset.image (fun n => f^[n] j)
          (Finset.range (Function.minimalPeriod f j))) :
    ∀ n : ℕ, ((permOn f hb _ hT) ^ n) j = f^[n] j := by
  intro n
  induction n with
  | zero => rfl
  | succ n ih =>
    rw [pow_succ', Equiv.Perm.mul_apply, ih]
    have hmem : f^[n] j ∈ Finset.image (fun m => f^[m] j)
        (Finset.range (Function.minimalPeriod f j)) := by
      rw [orbit_mem_iff]
      refine ⟨n % Function.minimalPeriod f j, Nat.mod_lt n hkpos, ?_⟩
      exact Function.iterate_mod_minimalPeriod_eq
    rw [permOn_apply_of_mem f hb _ hT _ hmem]
    exact (Function.iterate_succ_apply' f n j).symm

theorem sign_permOn_orbit (f : Fin 24 → Fin 24) (hb : Function.Bijective f) (j : Fin 24)
    (hkpos : 0 < Function.minimalPeriod f j)
    (hper : f^[Function.minimalPeriod f j] j = j)
    (hinj : Set.InjOn (fun n => f^[n] j) (Set.Iio (Function.minimalPeriod f j)))
    (hT : ∀ x : Fin 24,
      x ∈ Finset.image (fun n => f^[n] j)
          (Finset.range (Function.minimalPeriod f j)) ↔
        f x ∈ Finset.image (fun n => f^[n] j)
          (Finset.range (Function.minimalPeriod f j))) :
    Equiv.Perm.sign (permOn f hb _ hT) =
      (-1) ^ (Function.minimalPeriod f j + 1) := by
  by_cases hk1 : Function.minimalPeriod f j = 1
  · have hfj : f j = j := by
      have h := hper
      rw [hk1] at h
      exact h
    have hperm : permOn f hb _ hT = 1 := by
      apply Equiv.ext
      intro x
      by_cases hx : x ∈ Finset.image (fun n => f^[n] j)
          (Finset.range (Function.minimalPeriod f j))
      · rw [permOn_apply_of_mem f hb _ hT x hx]
        have hxj : x = j := by
          rcases (orbit_mem_iff f j x).mp hx with ⟨n, hn, he⟩
          rw [hk1] at hn
          have hn0 : n = 0 := by omega
          rw [← he, hn0]
          rfl
        rw [hxj, hfj]
        rfl
      · rw [permOn_apply_of_not_mem f hb _ hT x hx]
        rfl
    rw [hperm, map_one, hk1]
    decide
  · have hk2 : 2 ≤ Function.minimalPeriod f j := by
      omega
    have hfj : f j ≠ j := by
      intro h
      have hper1 : Function.IsPeriodicPt f 1 j := by
        show f^[1] j = j
        exact h
      have hle := Function.IsPeriodicPt.minimalPeriod_le Nat.one_pos hper1
      omega
    have hjmem : j ∈ Finset.image (fun n => f^[n] j)
        (Finset.range (Function.minimalPeriod f j)) := by
      rw [orbit_mem_iff]
      exact ⟨0, hkpos, rfl⟩
    have hcycle : (permOn f hb _ hT).IsCycle := by
      refine ⟨j, ?_, ?_⟩
      · rw [permOn_apply_of_mem f hb _ hT j hjmem]
        exact hfj
      · intro y hy
        have hymem : y ∈ Finset.image (fun n => f^[n] j)
            (Finset.range (Function.minimalPeriod f j)) := by
          by_contra hyn
          exact hy (permOn_apply_of_not_mem f hb _ hT y hyn)
        rcases (orbit_mem_iff f j y).mp hymem with ⟨n, hn, he⟩
        exact ⟨(n : ℤ), by rw [zpow_natCast, permOn_orbit_pow f hb j hkpos hT n, he]⟩
    have hsupp : (permOn f hb _ hT).support =
        Finset.image (fun n => f^[n] j)
          (Finset.range (Function.minimalPeriod f j)) := by
      apply Finset.ext
      intro x
      rw [Equiv.Perm.mem_support]
      constructor
      · intro hx
        by_contra hxn
        exact hx (permOn_apply_of_not_mem f hb _ hT x hxn)
      · intro hx
        rw [permOn_apply_of_mem f hb _ hT x hx]
        intro hfx
        rcases (orbit_mem_iff f j x).mp hx with ⟨n, hn, he⟩
        have hfix : Function.IsFixedPt f x := hfx
        have hiter : f^[Function.minimalPeriod f j - n] x = x :=
          hfix.iterate (Function.minimalPeriod f j - n)
        have h2 : f^[Function.minimalPeriod f j - n] x = j := by
          rw [← he, ← Function.iterate_add_apply]
          have h3 : Function.minimalPeriod f j - n + n = Function.minimalPeriod f j := by
            omega
          rw [h3, hper]
        have hxj : x = j := by
          rw [← h2, hiter]
        rw [hxj] at hfx
        exact hfj hfx
    have hcard : (permOn f hb _ hT).support.card = Function.minimalPeriod f j := by
      rw [hsupp, Finset.card_image_of_injOn (by rw [Finset.coe_range]; exact hinj),
        Finset.card_range]
    rw [hcycle.sign, hcard, pow_succ, mul_neg_one]

theorem bits_closed_iff (f : Fin 24 → Fin 24) (hb : Function.Bijective f)
    (S : Finset (Fin 24)) (hfwd : ∀ i : Fin 24, i ∈ S → f i ∈ S) :
    ∀ x : Fin 24, x ∈ S ↔ f x ∈ S := by
  have himg : S.image f ⊆ S := by
    intro y hy
    obtain ⟨x, hx, he⟩ := Finset.mem_image.mp hy
    rw [← he]
    exact hfwd x hx
  have heq : S.image f = S := Finset.eq_of_subset_of_card_le himg
    (le_of_eq (Finset.card_image_of_injective S hb.1).symm)
  intro x
  constructor
  · exact hfwd x
  · intro hfx
    rw [← heq] at hfx
    obtain ⟨y, hy, he⟩ := Finset.mem_image.mp hfx
    rw [← hb.1 he]
    exact hy

theorem minimalPeriod_le_card (f : Fin 24 → Fin 24) (j : Fin 24) :
    Function.minimalPeriod f j ≤ 24 := by
  have h1 : (Finset.image (fun n => f^[n] j)
      (Finset.range (Function.minimalPeriod f j))).card =
      Function.minimalPeriod f j := by
    rw [Finset.card_image_of_injOn (by
      rw [Finset.coe_range]
      exact Function.iterate_injOn_Iio_minimalPeriod), Finset.card_range]
  have h2 := Finset.card_le_card (Finset.subset_univ (Finset.image (fun n => f^[n] j)
      (Finset.range (Function.minimalPeriod f j))))
  rw [h1] at h2
  simpa using h2

theorem coordEPGo_cons_set (f : Fin 24 → Fin 24) (idx : Fin 24) (rest : List (Fin 24))
    (bits r : ℕ) (h : Nat.testBit bits idx.val = true) :
    coordEPGo f (idx :: rest) (bits, r) = coordEPGo f rest (bits, r) := by
  show (if Nat.testBit bits idx.val = false then
      coordEPGo f rest ((epCycleWalk f 24 bits idx).1,
        r + ((epCycleWalk f 24 bits idx).2 + 1))
    else coordEPGo f rest (bits, r)) = coordEPGo f rest (bits, r)
  rw [if_neg (by rw [h]; simp)]

theorem coordEPGo_cons_unset (f : Fin 24 → Fin 24) (idx : Fin 24)
    (rest : List (Fin 24)) (bits r : ℕ) (h : Nat.testBit bits idx.val = false) :
    coordEPGo f (idx :: rest) (bits, r) =
      coordEPGo f rest ((epCycleWalk f 24 bits idx).1,
        r + ((epCycleWalk f 24 bits idx).2 + 1)) := by
  show (if Nat.testBit bits idx.val = false then
      coordEPGo f rest ((epCycleWalk f 24 bits idx).1,
        r + ((epCycleWalk f 24 bits idx).2 + 1))
    else coordEPGo f rest (bits, r)) =
    coordEPGo f rest ((epCycleWalk f 24 bits idx).1,
      r + ((epCycleWalk f 24 bits idx).2 + 1))
  rw [if_pos h]

theorem coordEPGo_spec (f : Fin 24 → Fin 24) (hb : Function.Bijective f) :
    ∀ (idxs : List (Fin 24)) (bits r : ℕ),
      (∀ i : Fin 24, Nat.testBit bits i.val = true →
        Nat.testBit bits (f i).val = true) →
      ∃ bits2 r2,
        coordEPGo f idxs (bits, r) = (bits2, r2) ∧
        r ≤ r2 ∧
        (∀ i : Fin 24, Nat.testBit bits2 i.val = true →
          Nat.testBit bits2 (f i).val = true) ∧
        (∀ i ∈ idxs, Nat.testBit bits2 i.val = true) ∧
        (∀ i : Fin 24, Nat.testBit bits i.val = true →
          Nat.testBit bits2 i.val = true) ∧
        ∀ (hS : ∀ x : Fin 24,
            x ∈ Finset.filter (fun i : Fin 24 => Nat.testBit bits i.val = true)
                Finset.univ ↔
              f x ∈ Finset.filter (fun i : Fin 24 => Nat.testBit bits i.val = true)
                Finset.univ)
          (hS2 : ∀ x : Fin 24,
            x ∈ Finset.filter (fun i : Fin 24 => Nat.testBit bits2 i.val = true)
                Finset.univ ↔
              f x ∈ Finset.filter (fun i : Fin 24 => Nat.testBit bits2 i.val = true)
                Finset.univ),
          Equiv.Perm.sign (permOn f hb _ hS2) =
            Equiv.Perm.sign (permOn f hb _ hS) * (-1) ^ (r2 - r) := by
  intro idxs
  induction idxs with
  | nil =>
    intro bits r hfwd
    refine ⟨bits, r, rfl, le_refl r, hfwd, ?_, fun i h => h, ?_⟩
    · intro i hi
      exact absurd hi (List.not_mem_nil i)
    · intro hS hS2
      rw [Nat.sub_self, pow_zero, mul_one]
  | cons idx rest ih =>
    intro bits r hfwd
    by_cases hidx : Nat.testBit bits idx.val = true
    · obtain ⟨bits2, r2, heq, hr, hcl, hall, hmono, hsign⟩ := ih bits r hfwd
      refine ⟨bits2, r2, ?_, hr, hcl, ?_, hmono, hsign⟩
      · rw [coordEPGo_cons_set f idx rest bits r hidx]
        exact heq
      · intro i hi
        rcases List.mem_cons.mp hi with hi | hi
        · rw [hi]
          exact hmono idx hidx
        · exact hall i hi
    · have hidxf : Nat.testBit bits idx.val = false := by
        cases h : Nat.testBit bits idx.val
        · rfl
        · exact absurd h hidx
      have hper0 : idx ∈ Function.periodicPts f := mem_periodicPts_of_bijective f hb idx
      have hkpos : 0 < Function.minimalPeriod f idx :=
        Function.minimalPeriod_pos_of_mem_periodicPts hper0
      have hper : f^[Function.minimalPeriod f idx] idx = idx :=
        Function.iterate_minimalPeriod
      have hinj : Set.InjOn (fun n => f^[n] idx)
          (Set.Iio (Function.minimalPeriod f idx)) :=
        Function.iterate_injOn_Iio_minimalPeriod
      have hk24 : Function.minimalPeriod f idx ≤ 24 := minimalPeriod_le_card f idx
      have hfwd_iter : ∀ (m : ℕ) (x : Fin 24), Nat.testBit bits x.val = true →
          Nat.testBit bits (f^[m] x).val = true := by
        intro m
        induction m with
        | zero =>
          intro x hx
          exact hx
        | succ m ihm =>
          intro x hx
          rw [Function.iterate_succ_apply']
          exact hfwd _ (ihm x hx)
      have hd : ∀ n : ℕ, Nat.testBit bits (f^[n] idx).val = false := by
        intro n
        cases hn : Nat.testBit bits (f^[n] idx).val
        · rfl
        · exfalso
          have hmod : f^[n % Function.minimalPeriod f idx] idx = f^[n] idx :=
            Function.iterate_mod_minimalPeriod_eq
          rw [← hmod] at hn
          have h2 := hfwd_iter (Function.minimalPeriod f idx -
            n % Function.minimalPeriod f idx) _ hn
          rw [← Function.iterate_add_apply] at h2
          have h3 : Function.minimalPeriod f idx - n % Function.minimalPeriod f idx +
              n % Function.minimalPeriod f idx = Function.minimalPeriod f idx := by
            have h4 := Nat.mod_lt n hkpos
            omega
          rw [h3, hper] at h2
          rw [hidxf] at h2
          exact Bool.false_ne_true h2
      obtain ⟨bits1, hweq, hwprops⟩ := epCycleWalk_spec f idx hkpos hper hinj
        (Function.minimalPeriod f idx) 0 24 bits bits (by omega) (by omega) hd
        (by
          intro i
          constructor
          · intro h
            exact Or.inl h
          · rintro (h | ⟨n, hn, he⟩)
            · exact h
            · omega)
      have hweq2 : epCycleWalk f 24 bits idx = (bits1, Function.minimalPeriod f idx) :=
        hweq
      have hstep : coordEPGo f (idx :: rest) (bits, r) =
          coordEPGo f rest (bits1, r + (Function.minimalPeriod f idx + 1)) := by
        rw [coordEPGo_cons_unset f idx rest bits r hidxf, hweq2]
      have hfwd1 : ∀ i : Fin 24, Nat.testBit bits1 i.val = true →
          Nat.testBit bits1 (f i).val = true := by
        intro i hi
        rcases (hwprops i).mp hi with h0 | ⟨n, hn, he⟩
        · exact (hwprops (f i)).mpr (Or.inl (hfwd i h0))
        · by_cases hn1 : n + 1 < Function.minimalPeriod f idx
          · refine (hwprops (f i)).mpr (Or.inr ⟨n + 1, hn1, ?_⟩)
            rw [Function.iterate_succ_apply', he]
          · refine (hwprops (f i)).mpr (Or.inr ⟨0, hkpos, ?_⟩)
            have hn2 : n + 1 = Function.minimalPeriod f idx := by omega
            show idx = f i
            rw [← he]
            have h1 := (Function.iterate_succ_apply' f n idx).symm
            rw [Nat.succ_eq_add_one] at h1
            rw [h1, hn2, hper]
      obtain ⟨bits2, r2, heq, hr, hcl, hall, hmono, hsign⟩ :=
        ih bits1 (r + (Function.minimalPeriod f idx + 1)) hfwd1
      refine ⟨bits2, r2, ?_, by omega, hcl, ?_, ?_, ?_⟩
      · rw [hstep]
        exact heq
      · intro i hi
        rcases List.mem_cons.mp hi with hi | hi
        · rw [hi]
          apply hmono
          exact (hwprops idx).mpr (Or.inr ⟨0, hkpos, rfl⟩)
        · exact hall i hi
      · intro i hi
        exact hmono i ((hwprops i).mpr (Or.inl hi))
      · intro hS hS2
        have hS1c : ∀ x : Fin 24,
            x ∈ Finset.filter (fun i : Fin 24 => Nat.testBit bits1 i.val = true)
                Finset.univ ↔
              f x ∈ Finset.filter (fun i : Fin 24 => Nat.testBit bits1 i.val = true)
                Finset.univ :=
          bits_closed_iff f hb _ (fun i hi => by
            rw [Finset.mem_filter] at hi ⊢
            exact ⟨Finset.mem_univ _, hfwd1 i hi.2⟩)
        have hsign1 := hsign hS1c hS2
        have hTc := orbit_closed f hb idx hkpos hper
        have hsplit : Finset.filter (fun i : Fin 24 => Nat.testBit bits1 i.val = true)
            Finset.univ =
            Finset.filter (fun i : Fin 24 => Nat.testBit bits i.val = true)
              Finset.univ ∪
            Finset.image (fun n => f^[n] idx)
              (Finset.range (Function.minimalPeriod f idx)) := by
          apply Finset.ext
          intro x
          rw [Finset.mem_union, Finset.mem_filter, Finset.mem_filter, orbit_mem_iff]
          constructor
          · rintro ⟨-, hx⟩
            rcases (hwprops x).mp hx with h0 | ⟨n, hn, he⟩
            · exact Or.inl ⟨Finset.mem_univ x, h0⟩
            · exact Or.inr ⟨n, hn, he⟩
          · rintro (⟨-, hx⟩ | ⟨n, hn, he⟩)
            · exact ⟨Finset.mem_univ x, (hwprops x).mpr (Or.inl hx)⟩
            · exact ⟨Finset.mem_univ x, (hwprops x).mpr (Or.inr ⟨n, hn, he⟩)⟩
        have hUc : ∀ x : Fin 24,
            x ∈ Finset.filter (fun i : Fin 24 => Nat.testBit bits i.val = true)
                  Finset.univ ∪
                Finset.image (fun n => f^[n] idx)
                  (Finset.range (Function.minimalPeriod f idx)) ↔
              f x ∈ Finset.filter (fun i : Fin 24 => Nat.testBit bits i.val = true)
                  Finset.univ ∪
                Finset.image (fun n => f^[n] idx)
                  (Finset.range (Function.minimalPeriod f idx)) := by
          intro x
          rw [← hsplit]
          exact hS1c x
        have hdisj : ∀ x, x ∈ Finset.image (fun n => f^[n] idx)
              (Finset.range (Function.minimalPeriod f idx)) →
            x ∉ Finset.filter (fun i : Fin 24 => Nat.testBit bits i.val = true)
              Finset.univ := by
          intro x hx
          rw [Finset.mem_filter]
          rintro ⟨-, hx2⟩
          rcases (orbit_mem_iff f idx x).mp hx with ⟨n, hn, he⟩
          rw [← he, hd n] at hx2
          exact Bool.false_ne_true hx2
        have hcongr1 := permOn_congr f hb _ _ hsplit hS1c hUc
        have hmul := permOn_mul f hb _ _ hS hTc hUc hdisj
        have horb := sign_permOn_orbit f hb idx hkpos hper hinj hTc
        rw [hsign1, hcongr1, hmul, map_mul, horb, mul_assoc, ← pow_add]
        congr 1
        congr 1
        omega

/-- C7: on every pattern whose WINGS orbit holds a permutation of the
24 wing positions, `CoordEP::coordinate_for_pattern` returns a value in
`{0, 1}` equal to the parity of that permutation — 0 when it is even
and 1 when it is odd — computed by cycle decomposition as the low bit
of the sum over cycles of `cycle_length + 1`. -/
theorem coordEP_parity (f : Fin 24 → Fin 24) (hb : Function.Bijective f) :
    coordEP f =
      if Equiv.Perm.sign (Equiv.ofBijective f hb) = 1 then 0 else 1 := by
  obtain ⟨bits2, r2, heq, hr, hcl, hall, hmono, hsign⟩ :=
    coordEPGo_spec f hb (List.finRange 24) 0 0
      (by
        intro i hi
        rw [Nat.zero_testBit] at hi
        exact absurd hi Bool.false_ne_true)
  have hS0 : ∀ x : Fin 24,
      x ∈ Finset.filter (fun i : Fin 24 => Nat.testBit 0 i.val = true)
          Finset.univ ↔
        f x ∈ Finset.filter (fun i : Fin 24 => Nat.testBit 0 i.val = true)
          Finset.univ := by
    intro x
    simp [Nat.zero_testBit]
  have hSF : ∀ x : Fin 24,
      x ∈ Finset.filter (fun i : Fin 24 => Nat.testBit bits2 i.val = true)
          Finset.univ ↔
        f x ∈ Finset.filter (fun i : Fin 24 => Nat.testBit bits2 i.val = true)
          Finset.univ :=
    bits_closed_iff f hb _ (fun i hi => by
      rw [Finset.mem_filter] at hi ⊢
      exact ⟨Finset.mem_univ _, hcl i hi.2⟩)
  have hs := hsign hS0 hSF
  have hempty : Finset.filter (fun i : Fin 24 => Nat.testBit 0 i.val = true)
      Finset.univ = (∅ : Finset (Fin 24)) := by
    apply Finset.ext
    intro x
    simp [Nat.zero_testBit]
  have hS0e : ∀ x : Fin 24,
      x ∈ (∅ : Finset (Fin 24)) ↔ f x ∈ (∅ : Finset (Fin 24)) := by
    intro x
    simp
  have h1 : Equiv.Perm.sign (permOn f hb _ hS0) = 1 := by
    rw [permOn_congr f hb _ _ hempty hS0 hS0e, permOn_empty, map_one]
  have hfull : Finset.filter (fun i : Fin 24 => Nat.testBit bits2 i.val = true)
      Finset.univ = (Finset.univ : Finset (Fin 24)) := by
    apply Finset.ext
    intro x
    rw [Finset.mem_filter]
    constructor
    · intro h
      exact Finset.mem_univ x
    · intro h
      exact ⟨h, hall x (List.mem_finRange x)⟩
  have hSFu : ∀ x : Fin 24,
      x ∈ (Finset.univ : Finset (Fin 24)) ↔
        f x ∈ (Finset.univ : Finset (Fin 24)) := by
    intro x
    simp
  have h2 : Equiv.Perm.sign (permOn f hb _ hSF) =
      Equiv.Perm.sign (Equiv.ofBijective f hb) := by
    rw [permOn_congr f hb _ _ hfull hSF hSFu, permOn_univ]
  have h3 : Equiv.Perm.sign (Equiv.ofBijective f hb) = (-1) ^ r2 := by
    rw [← h2, hs, h1, one_mul, Nat.sub_zero]
  unfold coordEP
  rw [heq]
  show r2 &&& 1 = _
  rw [Nat.and_one_is_mod]
  rcases Nat.even_or_odd r2 with hev | hod
  · have hsg : Equiv.Perm.sign (Equiv.ofBijective f hb) = 1 := by
      rw [h3, Even.neg_one_pow hev]
    rw [if_pos hsg]
    exact Nat.even_iff.mp hev
  · have hsg : Equiv.Perm.sign (Equiv.ofBijective f hb) = -1 := by
      rw [h3, Odd.neg_one_pow hod]
    rw [if_neg (by rw [hsg]; decide)]
    exact Nat.odd_iff.mp hod

theorem coordEP_parity_witness :
    Function.Bijective (fun i : Fin 24 => i) ∧
      coordEP (fun i : Fin 24 => i) = 0 := by
  refine ⟨Function.bijective_id, ?_⟩
  have h := coordEP_parity (fun i : Fin 24 => i) Function.bijective_id
  have hsg : Equiv.Perm.sign (Equiv.ofBijective (fun i : Fin 24 => i)
      Function.bijective_id) = 1 := by
    have he : Equiv.ofBijective (fun i : Fin 24 => i) Function.bijective_id =
        Equiv.refl (Fin 24) := Equiv.ext (fun x => rfl)
    rw [he]
    exact map_one Equiv.Perm.sign
  rw [h, if_pos hsg]

end Twsearch
